import Mathlib

/-!
# Verification of `wpull/driver/process.py`

A shallow embedding of the RPC subprocess wrapper in
`src/wpull/driver/process.py` (classes `Process` and `RPCProcess`), together
with a model of the parts of Python's standard library the module calls into:
`json.dumps` / `json.loads` (with the default options the source uses:
`ensure_ascii=True`, separators `", "` and `": "`, `strict=True` decoding),
`bytes.decode('utf-8')` (strict and `'replace'` error handlers) and
`str.rstrip()`.

Python strings are modelled as lists of Unicode code points (`List Nat`);
bytes as lists of naturals below 256.  JSON-representable Python values are
modelled by the inductive `PyValue`; Python values `json.dumps` rejects with
`TypeError` (sets, arbitrary objects, ...) are collapsed into the
`PyValue.nonSerializable` constructor.  Numbers are modelled as arbitrary
precision integers (Python `int`); `float` values are outside the model.
Dictionary keys are modelled as strings, matching the spec's data model
("mapping of string keys to JSON-representable values").
-/

namespace Wpull

/-- JSON-representable Python values (plus a constructor standing for any
value `json.dumps` rejects with `TypeError`).  Strings are lists of Unicode
code points; dict entries keep insertion order, as Python dicts do. -/
inductive PyValue : Type where
  | null : PyValue
  | bool : Bool → PyValue
  | int : Int → PyValue
  | str : List Nat → PyValue
  | list : List PyValue → PyValue
  | dict : List (List Nat × PyValue) → PyValue
  | nonSerializable : Nat → PyValue
  deriving Repr

/-- A code point is a Unicode scalar value: below 0x110000 and not a
surrogate.  Python strings produced by decoding UTF-8 input contain only
scalar values. -/
def scalarCp (c : Nat) : Bool := c < 0x110000 && !(0xD800 ≤ c && c ≤ 0xDFFF)

mutual

/-- Well-formed messages: every string (including dict keys) consists of
Unicode scalar values. -/
def pyWf : PyValue → Bool
  | .null => true
  | .bool _ => true
  | .int _ => true
  | .str s => s.all scalarCp
  | .list xs => pyWfList xs
  | .dict kvs => pyWfDict kvs
  | .nonSerializable _ => true

def pyWfList : List PyValue → Bool
  | [] => true
  | x :: xs => pyWf x && pyWfList xs

def pyWfDict : List (List Nat × PyValue) → Bool
  | [] => true
  | (k, v) :: kvs => k.all scalarCp && pyWf v && pyWfDict kvs

end

/-! ## Model of `json.dumps` (default options)

`json.dumps` with `ensure_ascii=True` (the default, which the source relies
on) escapes `"` and `\`, uses the short escapes `\b \t \n \f \r`, leaves the
other printable ASCII characters as-is, and writes every remaining code point
as `\uXXXX` (lowercase hex), using a surrogate pair for code points at or
above 0x10000.  The item separator is `", "` and the key separator `": "`. -/

/-- Lowercase hexadecimal digit for a value below 16 (code point). -/
def hexDigitCp (n : Nat) : Nat :=
  if n < 10 then 48 + n else 87 + n

/-- Four-digit lowercase hex rendering of `n % 0x10000`, as code points
(the `\yXXXX` payload written by Python's `'\\u%04x' % n`). -/
def hex4 (n : Nat) : List Nat :=
  [hexDigitCp (n / 4096 % 16), hexDigitCp (n / 256 % 16),
   hexDigitCp (n / 16 % 16), hexDigitCp (n % 16)]

/-- Escape one code point the way `json.encoder.py_encode_basestring_ascii`
does: `ESCAPE_DCT` for `"` `\` and the five short escapes, identity on the
rest of printable ASCII, `\uXXXX` (with surrogate pairs above 0xFFFF)
otherwise. -/
def escapeCp (c : Nat) : List Nat :=
  if c = 0x22 then [0x5C, 0x22]
  else if c = 0x5C then [0x5C, 0x5C]
  else if c = 0x08 then [0x5C, 0x62]
  else if c = 0x09 then [0x5C, 0x74]
  else if c = 0x0A then [0x5C, 0x6E]
  else if c = 0x0C then [0x5C, 0x66]
  else if c = 0x0D then [0x5C, 0x72]
  else if 0x20 ≤ c ∧ c ≤ 0x7E then [c]
  else if c < 0x10000 then 0x5C :: 0x75 :: hex4 c
  else
    (0x5C :: 0x75 :: hex4 (0xD800 + (c - 0x10000) / 0x400)) ++
    (0x5C :: 0x75 :: hex4 (0xDC00 + (c - 0x10000) % 0x400))

/-- JSON string literal for the string `s`: quote, escaped body, quote. -/
def encodeString (s : List Nat) : List Nat :=
  0x22 :: (s.flatMap escapeCp) ++ [0x22]

/-- Fuel-indexed digit rendering (structural, so that proofs can evaluate
it); the fuel bounds the number of digits, so `n + 1` always suffices. -/
def natDigitsGo : Nat → Nat → List Nat
  | 0, _ => []
  | g + 1, n =>
    if n < 10 then [48 + n]
    else natDigitsGo g (n / 10) ++ [48 + n % 10]

/-- Decimal digits (as code points) of a natural number, most significant
first, as Python's `int.__repr__` renders it. -/
def natDigits (n : Nat) : List Nat := natDigitsGo (n + 1) n

/-- Rendering of a Python `int`: optional minus sign, decimal digits. -/
def encodeInt (n : Int) : List Nat :=
  if n < 0 then 0x2D :: natDigits ((-n).toNat) else natDigits n.toNat

mutual

/-- Model of `json.dumps` restricted to producing the code-point sequence of
the result string (`ensure_ascii` makes it pure ASCII).  Returns `none`
exactly when Python's `json.dumps` raises `TypeError` (a `nonSerializable`
value occurs somewhere). -/
def dumps : PyValue → Option (List Nat)
  | .null => some [0x6E, 0x75, 0x6C, 0x6C]
  | .bool true => some [0x74, 0x72, 0x75, 0x65]
  | .bool false => some [0x66, 0x61, 0x6C, 0x73, 0x65]
  | .int n => some (encodeInt n)
  | .str s => some (encodeString s)
  | .list xs => do
      let body ← dumpsElems xs
      return 0x5B :: body ++ [0x5D]
  | .dict kvs => do
      let body ← dumpsMembers kvs
      return 0x7B :: body ++ [0x7D]
  | .nonSerializable _ => none

/-- Comma-joined renderings of the elements of a JSON array (separator
`", "`, Python's default item separator). -/
def dumpsElems : List PyValue → Option (List Nat)
  | [] => some []
  | [x] => dumps x
  | x :: y :: rest => do
      let hd ← dumps x
      let tl ← dumpsElems (y :: rest)
      return hd ++ [0x2C, 0x20] ++ tl

/-- Comma-joined renderings of the members of a JSON object (key separator
`": "`, Python's default). -/
def dumpsMembers : List (List Nat × PyValue) → Option (List Nat)
  | [] => some []
  | [(k, v)] => do
      let vb ← dumps v
      return encodeString k ++ [0x3A, 0x20] ++ vb
  | (k, v) :: m :: rest => do
      let vb ← dumps v
      let tl ← dumpsMembers (m :: rest)
      return encodeString k ++ [0x3A, 0x20] ++ vb ++ [0x2C, 0x20] ++ tl

end

/-! ## Model of `json.loads`

`json.loads` with its default arguments uses the pure-Python scanner
semantics: `\uXXXX` escapes (surrogate pairs recombined, lone surrogates kept
as-is), strict rejection of unescaped control characters in strings, JSON
whitespace (space, tab, newline, carriage return) between tokens, and the
whole input consumed.  Numbers with a fraction or exponent part decode to
`float`, which is outside this model: the parser rejects them (no claim
involves floats, and `dumps` of a modelled value never writes one).  The
parser is fuel-indexed for termination; `loads` supplies fuel that is always
sufficient (one unit per value node or array/object member, each of which
consumes at least one input character). -/

/-- JSON whitespace accepted between tokens (`json.decoder.WHITESPACE_STR`). -/
def isWsCp (c : Nat) : Bool := c = 0x20 || c = 0x09 || c = 0x0A || c = 0x0D

/-- Skip JSON whitespace. -/
def skipWs (s : List Nat) : List Nat := s.dropWhile isWsCp

def isDigitCp (c : Nat) : Bool := 48 ≤ c && c ≤ 57

/-- Value of one hexadecimal digit code point. -/
def hexVal (c : Nat) : Option Nat :=
  if 48 ≤ c && c ≤ 57 then some (c - 48)
  else if 97 ≤ c && c ≤ 102 then some (c - 87)
  else if 65 ≤ c && c ≤ 70 then some (c - 55)
  else none

/-- Value of a `\yXXXX` escape's four hex digit code points. -/
def hexVal4 (a b c d : Nat) : Option Nat := do
  let x ← hexVal a
  let y ← hexVal b
  let z ← hexVal c
  let w ← hexVal d
  return x * 4096 + y * 256 + z * 16 + w

/-- Single-character escapes accepted after a backslash
(`json.decoder.BACKSLASH`). -/
def unescapeCp (e : Nat) : Option Nat :=
  if e = 0x22 then some 0x22
  else if e = 0x5C then some 0x5C
  else if e = 0x2F then some 0x2F
  else if e = 0x62 then some 0x08
  else if e = 0x66 then some 0x0C
  else if e = 0x6E then some 0x0A
  else if e = 0x72 then some 0x0D
  else if e = 0x74 then some 0x09
  else none

/-- Model of `json.decoder.py_scanstring` (strict mode) after the opening
quote: returns the decoded code points and the input after the closing
quote.  High surrogates from `\yXXXX` escapes combine with an immediately
following low-surrogate escape; unescaped control characters and bad escapes
fail.  Fuel-indexed for termination: one unit is spent per decoded code
point, so fuel `s.length + 1` is always sufficient (callers supply it). -/
def scanString : Nat → List Nat → Option (List Nat × List Nat)
  | 0, _ => none
  | _ + 1, [] => none
  | g + 1, c :: rest =>
    if c = 0x22 then some ([], rest)
    else if c = 0x5C then
      match rest with
      | [] => none
      | e :: rest2 =>
        if e = 0x75 then
          match rest2 with
          | a :: b :: c1 :: d :: rest3 =>
            match hexVal4 a b c1 d with
            | none => none
            | some cp =>
              if 0xD800 ≤ cp ∧ cp ≤ 0xDBFF then
                match rest3 with
                | e2 :: f2 :: rr =>
                  if e2 = 0x5C ∧ f2 = 0x75 then
                    match rr with
                    | a2 :: b2 :: c2 :: d2 :: rest4 =>
                      match hexVal4 a2 b2 c2 d2 with
                      | none => none
                      | some lo =>
                        if 0xDC00 ≤ lo ∧ lo ≤ 0xDFFF then
                          (fun p =>
                            ((0x10000 + (cp - 0xD800) * 0x400 + (lo - 0xDC00)) :: p.1,
                             p.2)) <$> scanString g rest4
                        else
                          (fun p => (cp :: p.1, p.2)) <$> scanString g rest3
                    | _ => none
                  else (fun p => (cp :: p.1, p.2)) <$> scanString g rest3
                | _ => (fun p => (cp :: p.1, p.2)) <$> scanString g rest3
              else
                (fun p => (cp :: p.1, p.2)) <$> scanString g rest3
          | _ => none
        else
          match unescapeCp e with
          | none => none
          | some u => (fun p => (u :: p.1, p.2)) <$> scanString g rest2
    else if c < 0x20 then none
    else (fun p => (c :: p.1, p.2)) <$> scanString g rest

/-- Numeric value of a run of decimal digit code points. -/
def digitsVal (ds : List Nat) : Nat := ds.foldl (fun a d => a * 10 + (d - 48)) 0

/-- Scan the integer part of a JSON number after the optional sign:
`0` or a nonzero digit followed by digits (`json.scanner.NUMBER_RE`).  A
following fraction or exponent part would make it a Python `float`, which is
outside this model, so such input is rejected here. -/
def scanUInt : List Nat → Option (Nat × List Nat)
  | [] => none
  | c :: rest =>
    if c = 48 then
      match rest with
      | d :: _ => if d = 0x2E ∨ d = 0x65 ∨ d = 0x45 then none else some (0, rest)
      | [] => some (0, rest)
    else if isDigitCp c then
      let ds := rest.takeWhile isDigitCp
      let r := rest.dropWhile isDigitCp
      match r with
      | d :: _ =>
        if d = 0x2E ∨ d = 0x65 ∨ d = 0x45 then none
        else some (digitsVal (c :: ds), r)
      | [] => some (digitsVal (c :: ds), r)
    else none

/-- Scan a JSON integer: optional minus sign, then the integer part. -/
def scanNumber : List Nat → Option (Int × List Nat)
  | [] => none
  | c :: rest =>
    if c = 0x2D then (fun p => (-(p.1 : Int), p.2)) <$> scanUInt rest
    else (fun p => ((p.1 : Int), p.2)) <$> scanUInt (c :: rest)

mutual

/-- Model of the scanner's `_scan_once`: dispatch on the first character.
Does not skip leading whitespace (callers do, as in `json.decoder`).  An
array or object first skips whitespace and checks for the trivial empty
case, then enters the element / member loop, exactly as `JSONArray` and
`JSONObject` do. -/
def parseValue : Nat → List Nat → Option (PyValue × List Nat)
  | 0, _ => none
  | f + 1, s =>
    match s with
    | [] => none
    | c :: rest =>
      if c = 0x22 then (fun p => (.str p.1, p.2)) <$> scanString (rest.length + 1) rest
      else if c = 0x7B then
        match skipWs rest with
        | [] => none
        | c2 :: r2 =>
          if c2 = 0x7D then some (.dict [], r2)
          else (fun p => (.dict p.1, p.2)) <$> parseMembersTail f (c2 :: r2)
      else if c = 0x5B then
        match skipWs rest with
        | [] => none
        | c2 :: r2 =>
          if c2 = 0x5D then some (.list [], r2)
          else (fun p => (.list p.1, p.2)) <$> parseElemsTail f (c2 :: r2)
      else if c = 0x6E then
        match rest with
        | 0x75 :: 0x6C :: 0x6C :: r => some (.null, r)
        | _ => none
      else if c = 0x74 then
        match rest with
        | 0x72 :: 0x75 :: 0x65 :: r => some (.bool true, r)
        | _ => none
      else if c = 0x66 then
        match rest with
        | 0x61 :: 0x6C :: 0x73 :: 0x65 :: r => some (.bool false, r)
        | _ => none
      else (fun p => (.int p.1, p.2)) <$> scanNumber (c :: rest)

/-- The element loop of `json.decoder.JSONArray`: scan a value, then `]`
ends the array and `,` (with surrounding whitespace) continues it. -/
def parseElemsTail : Nat → List Nat → Option (List PyValue × List Nat)
  | 0, _ => none
  | f + 1, s => do
    let (v, r) ← parseValue f s
    match skipWs r with
    | [] => none
    | c2 :: rest =>
      if c2 = 0x5D then some ([v], rest)
      else if c2 = 0x2C then
        (fun p => (v :: p.1, p.2)) <$> parseElemsTail f (skipWs rest)
      else none

/-- The member loop of `json.decoder.JSONObject`: quoted key, `:`, value;
then `}` ends the object and `,` (with surrounding whitespace, then a
mandatory quote) continues it. -/
def parseMembersTail : Nat → List Nat → Option (List (List Nat × PyValue) × List Nat)
  | 0, _ => none
  | f + 1, s =>
    match s with
    | [] => none
    | c :: r =>
      if c = 0x22 then do
        let (k, r1) ← scanString (r.length + 1) r
        match skipWs r1 with
        | [] => none
        | c2 :: r2 =>
          if c2 = 0x3A then do
            let (v, r3) ← parseValue f (skipWs r2)
            match skipWs r3 with
            | [] => none
            | c3 :: r4 =>
              if c3 = 0x7D then some ([(k, v)], r4)
              else if c3 = 0x2C then
                (fun p => ((k, v) :: p.1, p.2)) <$> parseMembersTail f (skipWs r4)
              else none
          else none
      else none

end

/-- Model of `json.loads`: skip leading whitespace, scan one value, skip
trailing whitespace, require the input to be fully consumed.  The fuel
`s.length + 1` is always sufficient: fuel is spent only on entering a value
node and on each array element / object member, and each such step consumes
at least one character of input. -/
def loads (s : List Nat) : Option PyValue :=
  match parseValue (s.length + 1) (skipWs s) with
  | some (v, r) => if skipWs r = [] then some v else none
  | none => none

/-- A list on which a preceding JSON integer literal ends: empty, or led by
a character that extends neither the integer part nor a fraction/exponent.
Every continuation `dumps` produces after a number (`", "`, `]`, `}`, end of
output) satisfies this. -/
def numBoundary : List Nat → Bool
  | [] => true
  | d :: _ => !(isDigitCp d || d = 0x2E || d = 0x65 || d = 0x45)

mutual

/-- Parser fuel sufficient for one value: one unit to enter the value node,
plus what its element/member loops need. -/
def cntFuel : PyValue → Nat
  | .list xs => 1 + cntElemsFuel xs
  | .dict kvs => 1 + cntMembersFuel kvs
  | _ => 1

/-- Parser fuel sufficient for the element loop of an array body. -/
def cntElemsFuel : List PyValue → Nat
  | [] => 0
  | [x] => 1 + cntFuel x
  | x :: y :: ys => 1 + max (cntFuel x) (cntElemsFuel (y :: ys))

/-- Parser fuel sufficient for the member loop of an object body. -/
def cntMembersFuel : List (List Nat × PyValue) → Nat
  | [] => 0
  | [(_, v)] => 1 + cntFuel v
  | (_, v) :: m :: ms => 1 + max (cntFuel v) (cntMembersFuel (m :: ms))

end

/-! ## Model of `str.encode('utf-8')` and `bytes.decode('utf-8', ...)`

The strict decoder models `line[5:].decode('utf-8')` in
`RPCProcess._stdout_callback`; the replacing decoder models
`line.decode('utf-8', 'replace')` on diagnostic lines.  CPython's `replace`
handler substitutes one U+FFFD per maximal subpart of an ill-formed
subsequence. -/

/-- UTF-8 encoding of one code point; `none` for surrogates and values
at or above 0x110000 (where `str.encode('utf-8')` raises
`UnicodeEncodeError`). -/
def utf8EncodeCp (c : Nat) : Option (List Nat) :=
  if c < 0x80 then some [c]
  else if c < 0x800 then some [0xC0 + c / 64, 0x80 + c % 64]
  else if 0xD800 ≤ c ∧ c ≤ 0xDFFF then none
  else if c < 0x10000 then some [0xE0 + c / 4096, 0x80 + c / 64 % 64, 0x80 + c % 64]
  else if c < 0x110000 then
    some [0xF0 + c / 0x40000, 0x80 + c / 4096 % 64, 0x80 + c / 64 % 64, 0x80 + c % 64]
  else none

/-- Model of `str.encode('utf-8')` on a list of code points. -/
def utf8Encode : List Nat → Option (List Nat)
  | [] => some []
  | c :: rest => do
    let b ← utf8EncodeCp c
    let t ← utf8Encode rest
    return b ++ t

/-- A UTF-8 continuation byte. -/
def utf8Cont (b : Nat) : Bool := 0x80 ≤ b && b ≤ 0xBF

/-- One step of UTF-8 decoding: either a decoded code point and the input
after its sequence, or an ill-formed maximal subpart to skip, or the end of
input. -/
inductive U8Step : Type where
  | done : U8Step
  | ok : Nat → List Nat → U8Step
  | bad : List Nat → U8Step

/-- Decode the first UTF-8 sequence of the input, following the maximal
subpart convention CPython uses for error reporting and replacement. -/
def utf8Step : List Nat → U8Step
  | [] => .done
  | b :: rest =>
    if b < 0x80 then .ok b rest
    else if b < 0xC2 then .bad rest
    else if b ≤ 0xDF then
      match rest with
      | b1 :: r1 =>
        if utf8Cont b1 then .ok ((b - 0xC0) * 64 + (b1 - 0x80)) r1 else .bad rest
      | [] => .bad []
    else if b ≤ 0xEF then
      let lo1 : Nat := if b = 0xE0 then 0xA0 else 0x80
      let hi1 : Nat := if b = 0xED then 0x9F else 0xBF
      match rest with
      | b1 :: r1 =>
        if lo1 ≤ b1 ∧ b1 ≤ hi1 then
          match r1 with
          | b2 :: r2 =>
            if utf8Cont b2 then
              .ok ((b - 0xE0) * 4096 + (b1 - 0x80) * 64 + (b2 - 0x80)) r2
            else .bad r1
          | [] => .bad []
        else .bad rest
      | [] => .bad []
    else if b ≤ 0xF4 then
      let lo1 : Nat := if b = 0xF0 then 0x90 else 0x80
      let hi1 : Nat := if b = 0xF4 then 0x8F else 0xBF
      match rest with
      | b1 :: r1 =>
        if lo1 ≤ b1 ∧ b1 ≤ hi1 then
          match r1 with
          | b2 :: r2 =>
            if utf8Cont b2 then
              match r2 with
              | b3 :: r3 =>
                if utf8Cont b3 then
                  .ok ((b - 0xF0) * 0x40000 + (b1 - 0x80) * 4096 +
                       (b2 - 0x80) * 64 + (b3 - 0x80)) r3
                else .bad r2
              | [] => .bad []
            else .bad r1
          | [] => .bad []
        else .bad rest
      | [] => .bad []
    else .bad rest

/-- Strict UTF-8 decoding loop (fuel-indexed; each step consumes at least
one byte, so fuel `s.length + 1` is always sufficient). -/
def utf8StrictGo : Nat → List Nat → Option (List Nat)
  | 0, _ => none
  | g + 1, s =>
    match utf8Step s with
    | .done => some []
    | .ok cp rest => (cp :: ·) <$> utf8StrictGo g rest
    | .bad _ => none

/-- Model of `bytes.decode('utf-8')`: `none` where Python raises
`UnicodeDecodeError`. -/
def utf8Decode (s : List Nat) : Option (List Nat) := utf8StrictGo (s.length + 1) s

/-- Replacing UTF-8 decoding loop (fuel-indexed as above). -/
def utf8ReplaceGo : Nat → List Nat → List Nat
  | 0, _ => []
  | g + 1, s =>
    match utf8Step s with
    | .done => []
    | .ok cp rest => cp :: utf8ReplaceGo g rest
    | .bad rest => 0xFFFD :: utf8ReplaceGo g rest

/-- Model of `bytes.decode('utf-8', 'replace')`: total, with one U+FFFD per
maximal ill-formed subpart. -/
def utf8DecodeReplace (s : List Nat) : List Nat := utf8ReplaceGo (s.length + 1) s

/-- The code points `str.rstrip()` removes (Python's Unicode whitespace). -/
def pyStripWs (c : Nat) : Bool :=
  (9 ≤ c && c ≤ 13) || (28 ≤ c && c ≤ 32) || c = 0x85 || c = 0xA0 || c = 0x1680 ||
  (0x2000 ≤ c && c ≤ 0x200A) || c = 0x2028 || c = 0x2029 || c = 0x202F ||
  c = 0x205F || c = 0x3000

/-- Model of `str.rstrip()`. -/
def pyRstrip (s : List Nat) : List Nat := (s.reverse.dropWhile pyStripWs).reverse

/-! ## Model of `Process` (the subprocess supervisor)

The state of a `Process` instance is its `_process` attribute: `none`
before `start` (the constructor sets `self._process = None`), `some pid`
afterwards.  The OS-dependent environment of a `close()` call is an oracle:
the sequence of values `self._process.returncode` yields at each successive
read, and the outcomes of the `terminate()` and `kill()` system calls.
`close()` is modelled as the list of externally visible actions it performs
(signal deliveries and `time.sleep(0.05)` calls) together with the state it
leaves behind, or the `errno` of the `OSError` it re-raises. -/

/-- `errno.ESRCH` ("no such process"). -/
def ESRCH : Nat := 3

/-- Outcome of delivering a signal (`terminate()` / `kill()`): success, or
an `OSError` with the given `errno`. -/
inductive SigOutcome : Type where
  | ok : SigOutcome
  | err : Nat → SigOutcome
  deriving Repr, DecidableEq

/-- Externally visible actions of `Process.close`. -/
inductive CloseAct : Type where
  | terminate : CloseAct
  | sleepMs : Nat → CloseAct
  | kill : CloseAct
  deriving Repr, DecidableEq

/-- Exceptions of the Python code that the embedding distinguishes. -/
inductive PyError : Type where
  | assertionError : PyError
  | typeError : PyError
  | unicodeEncodeError : PyError
  | unicodeDecodeError : PyError
  | jsonDecodeError : PyError
  deriving Repr, DecidableEq

/-- State of a `Process` instance: the `_process` attribute (`none` when
unset, `some pid` once a child has been spawned). -/
structure Process : Type where
  process : Option Nat
  deriving Repr, DecidableEq

/-- Environment of one `close()` call: `rc i` is the value the `i`-th read
of `self._process.returncode` yields (`none` while the child has not
exited), and `termRes` / `killRes` are the outcomes of the signal calls. -/
structure CloseEnv : Type where
  rc : Nat → Option Int
  termRes : SigOutcome
  killRes : SigOutcome

/-- The polling loop of `close()`: `for dummy in range(10): if returncode
is not None: return; time.sleep(0.05)`.  Returns the sleep actions
performed and whether an exit status was observed. -/
def closePoll (env : CloseEnv) : Nat → Nat → List CloseAct × Bool
  | 0, _ => ([], false)
  | n + 1, k =>
    match env.rc k with
    | some _ => ([], true)
    | none =>
      let (acts, b) := closePoll env n (k + 1)
      (CloseAct.sleepMs 50 :: acts, b)

/-- Actions `start()` performs after its assertion passes: spawn the child,
schedule the two background read loops, and (if requested) register the
atexit hook. -/
inductive StartAct : Type where
  | spawn : StartAct
  | watchStdout : StartAct
  | watchStderr : StartAct
  | registerAtexit : StartAct
  deriving Repr, DecidableEq

/-- Model of `Process.start(use_atexit)`: `assert not self._process` fails
with `AssertionError` when a child was already spawned (before any other
effect); otherwise the child is spawned, both read loops are scheduled and
the atexit hook is registered when `use_atexit` is true. -/
def Process.start (st : Process) (pid : Nat) (use_atexit : Bool) :
    Except PyError (Process × List StartAct) :=
  match st.process with
  | some _ => .error .assertionError
  | none =>
    .ok ({ process := some pid },
      [.spawn, .watchStdout, .watchStderr] ++ if use_atexit then [.registerAtexit] else [])

/-- Model of `Process.close()`.  Mirrors the source line by line: return at
once if `_process` is unset or `returncode` is already set; attempt
`terminate()`, re-raising any `OSError` whose `errno` is not `ESRCH`; poll
`returncode` ten times, sleeping 50ms after each unset read, returning as
soon as it is set; otherwise attempt `kill()` with the same `ESRCH`
handling, and return.  The instance state is returned unchanged —
`close()` never assigns `self._process`. -/
def Process.close (st : Process) (env : CloseEnv) :
    Except Nat (Process × List CloseAct) :=
  match st.process with
  | none => .ok (st, [])
  | some _ =>
    match env.rc 0 with
    | some _ => .ok (st, [])
    | none =>
      let afterTerm : Except Nat (Process × List CloseAct) :=
        let (sleeps, exited) := closePoll env 10 1
        if exited then .ok (st, CloseAct.terminate :: sleeps)
        else
          match env.killRes with
          | .ok => .ok (st, CloseAct.terminate :: sleeps ++ [CloseAct.kill])
          | .err e =>
            if e = ESRCH then .ok (st, CloseAct.terminate :: sleeps ++ [CloseAct.kill])
            else .error e
      match env.termRes with
      | .ok => afterTerm
      | .err e => if e = ESRCH then afterTerm else .error e

/-- Model of the `Process._read_stdout` loop.  `rc i` is the `returncode`
value observed at the top of iteration `i`; `reads` are the successive
results of `stdout.readline()` (after the list is exhausted the stream
yields `b''`).  The result is the sequence of lines passed to the stdout
callback, in order: the loop awaits each callback invocation before
performing the next read, so the model is sequential by construction. -/
def Process.read_stdout (rc : Nat → Option Int) : Nat → List (List Nat) → List (List Nat)
  | _, [] => []
  | i, line :: rest =>
    match rc i with
    | some _ => []
    | none =>
      if line = [] then []
      else line :: Process.read_stdout rc (i + 1) rest

/-! ## Model of `RPCProcess` -/

/-- The framing marker `b'!RPC '`. -/
def rpcMarker : List Nat := [0x21, 0x52, 0x50, 0x43, 0x20]

/-- Model of `RPCProcess.send_message(message)`: the list of chunks written
to the child's stdin, in order, together with the outcome.  The marker is
written first; then `json.dumps(message).encode('utf-8')` is evaluated — if
it raises (`TypeError` from `dumps`, `UnicodeEncodeError` from `encode`)
the exception propagates with only the marker written; otherwise the
payload and the newline follow and the stream is drained. -/
def RPCProcess.send_message (message : PyValue) : List (List Nat) × Except PyError Unit :=
  match dumps message with
  | none => ([rpcMarker], .error .typeError)
  | some e =>
    match utf8Encode e with
    | none => ([rpcMarker], .error .unicodeEncodeError)
    | some payload => ([rpcMarker, payload, [0x0A]], .ok ())

/-- Effects of one `RPCProcess._stdout_callback` invocation. -/
structure CallbackEffects : Type where
  handlerCalls : List PyValue
  writes : List (List Nat)
  warnings : List (List Nat)
  deriving Repr

/-- Model of `RPCProcess._stdout_callback(line)`.  A line starting with
`b'!RPC '` is protocol traffic: the rest of the line is decoded as UTF-8
(strict) and parsed as JSON — both failures propagate — and the decoded
message is passed to the message callback; a non-`None` return value is
written back through `send_message`.  Any other line is forwarded to the
logger as a warning, decoded with `'replace'` and right-stripped. -/
def RPCProcess.stdout_callback (handler : PyValue → Option PyValue) (line : List Nat) :
    Except PyError CallbackEffects :=
  if rpcMarker.isPrefixOf line then
    match utf8Decode (line.drop 5) with
    | none => .error .unicodeDecodeError
    | some cps =>
      match loads cps with
      | none => .error .jsonDecodeError
      | some message =>
        match handler message with
        | none => .ok ⟨[message], [], []⟩
        | some ret =>
          let (ws, res) := RPCProcess.send_message ret
          match res with
          | .ok _ => .ok ⟨[message], ws, []⟩
          | .error e => .error e
  else
    .ok ⟨[], [], [pyRstrip (utf8DecodeReplace line)]⟩

/-- Model of `RPCProcess._stderr_callback(line)`: every stderr line is
forwarded to the logger as a warning, decoded with `'replace'` and
right-stripped. -/
def RPCProcess.stderr_callback (line : List Nat) : List (List Nat) :=
  [pyRstrip (utf8DecodeReplace line)]

/-! ## Round-trip lemmas: `loads` after `dumps`

The development below proves the C1 round-trip law: decoding the payload
written by `send_message` yields the original message. -/

theorem hexVal_hexDigitCp : ∀ d < 16, hexVal (hexDigitCp d) = some d := by decide

theorem hexVal4_hex4 (n : Nat) (h : n < 0x10000) :
    hexVal4 (hexDigitCp (n / 4096 % 16)) (hexDigitCp (n / 256 % 16))
      (hexDigitCp (n / 16 % 16)) (hexDigitCp (n % 16)) = some n := by
  have h1 := hexVal_hexDigitCp (n / 4096 % 16) (Nat.mod_lt _ (by norm_num))
  have h2 := hexVal_hexDigitCp (n / 256 % 16) (Nat.mod_lt _ (by norm_num))
  have h3 := hexVal_hexDigitCp (n / 16 % 16) (Nat.mod_lt _ (by norm_num))
  have h4 := hexVal_hexDigitCp (n % 16) (Nat.mod_lt _ (by norm_num))
  simp [hexVal4, h1, h2, h3, h4]
  omega

/-- Scanning a surrogate-pair escape: the two escaped code units recombine
into one code point. -/
theorem scanString_surrogatePair (g : Nat) (h1 h2 h3 h4 l1 l2 l3 l4 hi lo : Nat)
    (tail : List Nat)
    (hh : hexVal4 h1 h2 h3 h4 = some hi) (hl : hexVal4 l1 l2 l3 l4 = some lo)
    (hhia : 0xD800 ≤ hi) (hhib : hi ≤ 0xDBFF) (hloa : 0xDC00 ≤ lo) (hlob : lo ≤ 0xDFFF) :
    scanString (g + 1)
      (0x5C :: 0x75 :: h1 :: h2 :: h3 :: h4 :: 0x5C :: 0x75 :: l1 :: l2 :: l3 :: l4 :: tail) =
      (fun p => ((0x0010000 + (hi - 0xD800) * 0x400 + (lo - 0xDC00)) :: p.1, p.2)) <$>
        scanString g tail := by
  rw [scanString]
  simp [hh, hl, hhia, hhib, hloa, hlob]

/-- Scanning one escaped code point: `scanString` undoes `escapeCp` for any
Unicode scalar value, consuming one unit of fuel. -/
theorem scanString_escapeCp (c : Nat) (hc : scalarCp c = true) (g : Nat) (tail : List Nat) :
    scanString (g + 1) (escapeCp c ++ tail) =
      (fun p => (c :: p.1, p.2)) <$> scanString g tail := by
  simp only [scalarCp, Bool.and_eq_true, decide_eq_true_eq, Bool.not_eq_eq_eq_not,
    Bool.not_true, Bool.and_eq_false_iff, decide_eq_false_iff_not, not_le] at hc
  by_cases h22 : c = 0x22
  · subst h22; simp [escapeCp, scanString, unescapeCp]
  by_cases h5C : c = 0x5C
  · subst h5C; simp [escapeCp, scanString, unescapeCp]
  by_cases h08 : c = 0x08
  · subst h08; simp [escapeCp, scanString, unescapeCp]
  by_cases h09 : c = 0x09
  · subst h09; simp [escapeCp, scanString, unescapeCp]
  by_cases h0A : c = 0x0A
  · subst h0A; simp [escapeCp, scanString, unescapeCp]
  by_cases h0C : c = 0x0C
  · subst h0C; simp [escapeCp, scanString, unescapeCp]
  by_cases h0D : c = 0x0D
  · subst h0D; simp [escapeCp, scanString, unescapeCp]
  by_cases hprint : 0x20 ≤ c ∧ c ≤ 0x7E
  · have e1 : escapeCp c = [c] := by
      simp [escapeCp, h22, h5C, h08, h09, h0A, h0C, h0D, hprint]
    have hlt : ¬ c < 0x20 := by omega
    rw [e1]
    simp [scanString, h22, h5C, hlt]
  by_cases hbmp : c < 0x10000
  · have e1 : escapeCp c = 0x5C :: 0x75 :: hex4 c := by
      simp [escapeCp, h22, h5C, h08, h09, h0A, h0C, h0D, hprint, hbmp]
    have hsur : ¬ (0xD800 ≤ c ∧ c ≤ 0xDBFF) := by
      rcases hc with ⟨_, hc2⟩
      rcases hc2 with hlt | hgt <;> omega
    rw [e1]
    simp only [hex4, List.cons_append, List.nil_append]
    simp [scanString, hexVal4_hex4 c hbmp, hsur]
  · rcases hc with ⟨hmax, _⟩
    have e1 : escapeCp c =
        (0x5C :: 0x75 :: hex4 (0xD800 + (c - 0x10000) / 0x400)) ++
        (0x5C :: 0x75 :: hex4 (0xDC00 + (c - 0x10000) % 0x400)) := by
      simp [escapeCp, h22, h5C, h08, h09, h0A, h0C, h0D, hprint, hbmp]
    have hdivle : (c - 0x10000) / 0x400 ≤ 0xFFFFF / 0x400 :=
      Nat.div_le_div_right (by omega)
    have hmodlt := Nat.mod_lt (c - 0x10000) (show 0 < 0x400 by norm_num)
    have hhi : 0xD800 + (c - 0x10000) / 0x400 < 0x10000 := by omega
    have hlo : 0xDC00 + (c - 0x10000) % 0x400 < 0x10000 := by omega
    have key := scanString_surrogatePair g _ _ _ _ _ _ _ _ _ _ tail
      (hexVal4_hex4 _ hhi) (hexVal4_hex4 _ hlo)
      (by omega) (by omega) (by omega) (by omega)
    rw [e1]
    simp only [hex4, List.cons_append, List.nil_append, List.append_assoc]
    rw [key]
    have hfin : 0x0010000 + (0xD800 + (c - 0x10000) / 0x400 - 0xD800) * 0x400 +
        (0xDC00 + (c - 0x10000) % 0x400 - 0xDC00) = c := by
      have := Nat.div_add_mod (c - 0x10000) 0x400
      omega
    rw [hfin]

/-- `scanString` undoes the escaped body of a JSON string literal up to its
closing quote, for strings of Unicode scalar values. -/
theorem scanString_encodeString (s : List Nat) :
    ∀ (hs : s.all scalarCp = true) (g : Nat) (rest : List Nat), s.length + 1 ≤ g →
      scanString g (s.flatMap escapeCp ++ (0x22 :: rest)) = some (s, rest) := by
  induction s with
  | nil =>
    intro _ g rest hg
    obtain ⟨g1, rfl⟩ : ∃ g1, g = g1 + 1 := ⟨g - 1, by omega⟩
    simp [scanString]
  | cons c s ih =>
    intro hs g rest hg
    obtain ⟨g1, rfl⟩ : ∃ g1, g = g1 + 1 := ⟨g - 1, by omega⟩
    simp only [List.all_cons, Bool.and_eq_true] at hs
    simp only [List.flatMap_cons, List.append_assoc]
    rw [scanString_escapeCp c hs.1 g1]
    rw [ih hs.2 g1 rest (by simpa using Nat.le_of_succ_le_succ hg)]
    rfl

/-- Escaping a code point yields at least one character. -/
theorem escapeCp_length_pos (c : Nat) : 1 ≤ (escapeCp c).length := by
  unfold escapeCp
  split_ifs <;> simp [hex4]

/-- The escaped body of a string is at least as long as the string. -/
theorem flatMap_escapeCp_length (s : List Nat) :
    s.length ≤ (s.flatMap escapeCp).length := by
  induction s with
  | nil => simp
  | cons c s ih =>
    have := escapeCp_length_pos c
    simp only [List.flatMap_cons, List.length_append, List.length_cons]
    omega

theorem skipWs_cons_of_not_ws (c : Nat) (l : List Nat) (h : isWsCp c = false) :
    skipWs (c :: l) = c :: l := by
  simp [skipWs, List.dropWhile_cons, h]

theorem skipWs_cons_of_ws (c : Nat) (l : List Nat) (h : isWsCp c = true) :
    skipWs (c :: l) = skipWs l := by
  simp [skipWs, List.dropWhile_cons, h]

theorem digitsVal_append (l : List Nat) (d : Nat) :
    digitsVal (l ++ [d]) = digitsVal l * 10 + (d - 48) := by
  simp [digitsVal, List.foldl_append]

/-- The digit renderer produces a non-empty, all-digit list whose value is
the rendered number, with a non-zero leading digit for positive numbers. -/
theorem natDigitsGo_spec : ∀ g n, n < g →
    (∀ d ∈ natDigitsGo g n, 48 ≤ d ∧ d ≤ 57) ∧
    digitsVal (natDigitsGo g n) = n ∧
    (∃ h t, natDigitsGo g n = h :: t ∧ 48 ≤ h ∧ h ≤ 57 ∧ (1 ≤ n → 48 < h)) := by
  intro g
  induction g with
  | zero => intro n hn; omega
  | succ g ih =>
    intro n hn
    by_cases hsmall : n < 10
    · refine ⟨?_, ?_, 48 + n, [], ?_⟩
      · intro d hd
        simp [natDigitsGo, hsmall] at hd
        omega
      · simp [natDigitsGo, hsmall, digitsVal]
      · simp [natDigitsGo, hsmall]
        omega
    · have hdiv : n / 10 < g := by omega
      obtain ⟨ihall, ihval, h, t, ihcons, hge, hle, hpos⟩ := ih (n / 10) hdiv
      have hstep : natDigitsGo (g + 1) n = natDigitsGo g (n / 10) ++ [48 + n % 10] := by
        simp [natDigitsGo, hsmall]
      refine ⟨?_, ?_, h, t ++ [48 + n % 10], ?_⟩
      · intro d hd
        rw [hstep] at hd
        rcases List.mem_append.mp hd with hmem | hmem
        · exact ihall d hmem
        · simp at hmem; omega
      · rw [hstep, digitsVal_append, ihval]
        omega
      · refine ⟨by rw [hstep, ihcons]; simp, hge, hle, fun _ => ?_⟩
        exact hpos (by omega)

/-- Splitting `takeWhile`/`dropWhile` over an all-satisfying prefix followed
by a non-satisfying (or empty) continuation. -/
theorem takeWhile_all_append (p : Nat → Bool) :
    ∀ (l r : List Nat), (∀ x ∈ l, p x = true) →
      (∀ y t, r = y :: t → p y = false) →
      (l ++ r).takeWhile p = l ∧ (l ++ r).dropWhile p = r := by
  intro l
  induction l with
  | nil =>
    intro r _ hr
    match r with
    | [] => simp
    | y :: t => simp [List.takeWhile_cons, List.dropWhile_cons, hr y t rfl]
  | cons x l ih =>
    intro r hl hr
    have hx : p x = true := hl x (List.mem_cons_self x l)
    have := ih r (fun a ha => hl a (List.mem_cons_of_mem x ha)) hr
    simp [List.takeWhile_cons, List.dropWhile_cons, hx, this.1, this.2]

/-- `scanUInt` undoes the decimal rendering of a natural number when the
continuation cannot extend the numeral. -/
theorem scanUInt_natDigits (n : Nat) (rest : List Nat) (hb : numBoundary rest = true) :
    scanUInt (natDigits n ++ rest) = some (n, rest) := by
  have hbound : ∀ d t, rest = d :: t →
      (d < 48 ∨ 57 < d) ∧ ¬ d = 0x2E ∧ ¬ d = 0x65 ∧ ¬ d = 0x45 := by
    intro d t hrest
    subst hrest
    revert hb
    simp [numBoundary, isDigitCp]
    omega
  by_cases h0 : n = 0
  · subst h0
    have hz : natDigits 0 = [48] := rfl
    rw [hz]
    match rest, hb with
    | [], _ => simp [scanUInt]
    | d :: t, hb =>
      obtain ⟨_, h2E, h65, h45⟩ := hbound d t rfl
      have hflt : ¬ (d = 0x2E ∨ d = 0x65 ∨ d = 0x45) := by omega
      simp [scanUInt, hflt]
  · obtain ⟨hall, hval, h, t, hcons, hge, hle, hpos⟩ :=
      natDigitsGo_spec (n + 1) n (by omega)
    have hcons' : natDigits n = h :: t := hcons
    have hh : 48 < h := hpos (by omega)
    rw [hcons']
    have htw := takeWhile_all_append isDigitCp t rest
      (fun x hx => by
        have := hall x (by rw [hcons]; exact List.mem_cons_of_mem h hx)
        simp only [isDigitCp, Bool.and_eq_true, decide_eq_true_eq]
        omega)
      (fun y s hys => by
        have := (hbound y s hys).1
        simp only [isDigitCp, Bool.and_eq_false_iff, decide_eq_false_iff_not]
        omega)
    have hne48 : ¬ h = 48 := by omega
    have hdig : isDigitCp h = true := by
      simp only [isDigitCp, Bool.and_eq_true, decide_eq_true_eq]
      omega
    simp only [List.cons_append, scanUInt, hne48, if_neg, hdig, if_pos, ite_false, ite_true,
      htw.1, htw.2]
    have hvaln : digitsVal (h :: t) = n := by rw [← hcons']; exact hval
    match rest, hb with
    | [], _ => simp [hvaln]
    | d :: s, hb =>
      obtain ⟨_, h2E, h65, h45⟩ := hbound d s rfl
      have hflt : ¬ (d = 0x2E ∨ d = 0x65 ∨ d = 0x45) := by omega
      simp [hflt, hvaln]

/-- `scanNumber` undoes `encodeInt` when the continuation cannot extend the
numeral. -/
theorem scanNumber_encodeInt (n : Int) (rest : List Nat) (hb : numBoundary rest = true) :
    scanNumber (encodeInt n ++ rest) = some (n, rest) := by
  by_cases hneg : n < 0
  · have he : encodeInt n = 0x2D :: natDigits ((-n).toNat) := by simp [encodeInt, hneg]
    rw [he]
    simp only [List.cons_append, scanNumber, if_pos]
    rw [scanUInt_natDigits ((-n).toNat) rest hb]
    have hcast : (((-n).toNat : Int)) = -n := Int.toNat_of_nonneg (by omega)
    simp [hcast]
  · have he : encodeInt n = natDigits n.toNat := by simp [encodeInt, hneg]
    obtain ⟨hall, hval, h, t, hcons, hge, hle, hpos⟩ :=
      natDigitsGo_spec (n.toNat + 1) n.toNat (by omega)
    have hcons' : natDigits n.toNat = h :: t := hcons
    rw [he, hcons']
    have hne : ¬ h = 0x2D := by omega
    simp only [List.cons_append, scanNumber, hne, if_neg, ite_false]
    rw [← List.cons_append, ← hcons', scanUInt_natDigits n.toNat rest hb]
    have hcast : ((n.toNat : Int)) = n := Int.toNat_of_nonneg (by omega)
    simp [hcast]

/-- The first character a successful `dumps` writes: a quote, brace,
bracket, literal head (`n`/`t`/`f`), minus sign, or digit. -/
theorem dumps_head (v : PyValue) (e : List Nat) (hd : dumps v = some e) :
    ∃ c t, e = c :: t ∧ (c = 0x22 ∨ c = 0x7B ∨ c = 0x5B ∨ c = 0x6E ∨ c = 0x74 ∨
      c = 0x66 ∨ c = 0x2D ∨ (48 ≤ c ∧ c ≤ 57)) := by
  cases v with
  | null =>
    simp only [dumps, Option.some.injEq] at hd
    exact ⟨0x6E, _, hd.symm, by omega⟩
  | bool b =>
    cases b <;> simp only [dumps, Option.some.injEq] at hd
    · exact ⟨0x66, _, hd.symm, by omega⟩
    · exact ⟨0x74, _, hd.symm, by omega⟩
  | int n =>
    simp only [dumps, Option.some.injEq] at hd
    by_cases hneg : n < 0
    · have he : encodeInt n = 0x2D :: natDigits ((-n).toNat) := by simp [encodeInt, hneg]
      rw [he] at hd
      exact ⟨0x2D, _, hd.symm, by omega⟩
    · have he : encodeInt n = natDigits n.toNat := by simp [encodeInt, hneg]
      obtain ⟨_, _, h, t, hcons, hge, hle, _⟩ :=
        natDigitsGo_spec (n.toNat + 1) n.toNat (by omega)
      have hcons2 : natDigits n.toNat = h :: t := hcons
      rw [he, hcons2] at hd
      exact ⟨h, t, hd.symm, by omega⟩
  | str s =>
    simp only [dumps, encodeString, Option.some.injEq] at hd
    exact ⟨0x22, _, hd.symm, by omega⟩
  | list xs =>
    simp only [dumps, Option.bind_eq_bind, bind, Option.bind_eq_some] at hd
    obtain ⟨body, _, hb⟩ := hd
    simp only [Option.pure_def, Option.some.injEq] at hb
    exact ⟨0x5B, _, hb.symm, by omega⟩
  | dict kvs =>
    simp only [dumps, Option.bind_eq_bind, bind, Option.bind_eq_some] at hd
    obtain ⟨body, _, hb⟩ := hd
    simp only [Option.pure_def, Option.some.injEq] at hb
    exact ⟨0x7B, _, hb.symm, by omega⟩
  | nonSerializable tag => simp [dumps] at hd

/-- A successful `dumps` output never starts with whitespace, `]`, `}`, or
a comma. -/
theorem dumps_head_not_ws (v : PyValue) (e : List Nat) (hd : dumps v = some e) :
    ∃ c t, e = c :: t ∧ isWsCp c = false ∧ ¬ c = 0x5D ∧ ¬ c = 0x7D := by
  obtain ⟨c, t, rfl, hc⟩ := dumps_head v e hd
  refine ⟨c, t, rfl, ?_, by omega, by omega⟩
  simp only [isWsCp, Bool.or_eq_false_iff, decide_eq_false_iff_not]
  omega

/-- A non-empty array body starts with the rendering of its first element. -/
theorem dumpsElems_decompose (y : PyValue) (ys : List PyValue) (b : List Nat)
    (hd : dumpsElems (y :: ys) = some b) :
    ∃ ey tl, dumps y = some ey ∧ b = ey ++ tl := by
  match ys, hd with
  | [], hd => exact ⟨b, [], by simpa [dumpsElems] using hd, by simp⟩
  | m :: ms, hd =>
    simp only [dumpsElems, Option.bind_eq_bind, bind, Option.bind_eq_some,
      Option.pure_def, Option.some.injEq] at hd
    obtain ⟨ey, hey, tl, htl, hb⟩ := hd
    exact ⟨ey, [0x2C, 0x20] ++ tl, hey, by rw [← hb]; simp⟩

/-- A non-empty object body starts with the quote of its first key. -/
theorem dumpsMembers_head (kv : List Nat × PyValue) (ms : List (List Nat × PyValue))
    (b : List Nat) (hd : dumpsMembers (kv :: ms) = some b) :
    ∃ tl, b = 0x22 :: tl := by
  match kv, ms, hd with
  | (k, v), [], hd =>
    simp only [dumpsMembers, Option.bind_eq_bind, bind, Option.bind_eq_some,
      Option.pure_def, Option.some.injEq] at hd
    obtain ⟨ev, _, hb⟩ := hd
    refine ⟨(k.flatMap escapeCp ++ [0x22]) ++ ([0x3A, 0x20] ++ ev), ?_⟩
    rw [← hb]
    simp [encodeString]
  | (k, v), m :: ms, hd =>
    simp only [dumpsMembers, Option.bind_eq_bind, bind, Option.bind_eq_some,
      Option.pure_def, Option.some.injEq] at hd
    obtain ⟨ev, _, tl, _, hb⟩ := hd
    refine ⟨(k.flatMap escapeCp ++ [0x22]) ++ ([0x3A, 0x20] ++ ev ++ [0x2C, 0x20] ++ tl), ?_⟩
    rw [← hb]
    simp [encodeString]

theorem cntFuel_pos (v : PyValue) : 1 ≤ cntFuel v := by
  cases v <;> simp [cntFuel]

theorem cntElemsFuel_pos (x : PyValue) (xs : List PyValue) :
    1 ≤ cntElemsFuel (x :: xs) := by
  cases xs <;> simp [cntElemsFuel]

theorem cntMembersFuel_pos (kv : List Nat × PyValue) (kvs : List (List Nat × PyValue)) :
    1 ≤ cntMembersFuel (kv :: kvs) := by
  rcases kv with ⟨k, v⟩
  cases kvs <;> simp [cntMembersFuel]

mutual

/-- The fuel a value needs is bounded by the length of its rendering. -/
theorem cntFuel_le (v : PyValue) :
    ∀ e, dumps v = some e → cntFuel v ≤ e.length + 1 := by
  match v with
  | .null => intro e _; simp [cntFuel]
  | .bool b => intro e _; simp [cntFuel]
  | .int n => intro e _; simp [cntFuel]
  | .str s => intro e _; simp [cntFuel]
  | .nonSerializable t => intro e hd; simp [dumps] at hd
  | .list xs =>
    intro e hd
    simp only [dumps, Option.bind_eq_bind, bind, Option.bind_eq_some,
      Option.pure_def, Option.some.injEq] at hd
    obtain ⟨body, hbody, hb⟩ := hd
    have := cntElemsFuel_le xs body hbody
    rw [← hb]
    simp only [cntFuel, List.length_cons, List.length_append, List.length_cons,
      List.length_nil]
    omega
  | .dict kvs =>
    intro e hd
    simp only [dumps, Option.bind_eq_bind, bind, Option.bind_eq_some,
      Option.pure_def, Option.some.injEq] at hd
    obtain ⟨body, hbody, hb⟩ := hd
    have := cntMembersFuel_le kvs body hbody
    rw [← hb]
    simp only [cntFuel, List.length_cons, List.length_append, List.length_cons,
      List.length_nil]
    omega

/-- The fuel an element loop needs is bounded by the body length plus two. -/
theorem cntElemsFuel_le (xs : List PyValue) :
    ∀ b, dumpsElems xs = some b → cntElemsFuel xs ≤ b.length + 2 := by
  match xs with
  | [] => intro b _; simp [cntElemsFuel]
  | [x] =>
    intro b hd
    simp only [dumpsElems] at hd
    have := cntFuel_le x b hd
    simp only [cntElemsFuel]
    omega
  | x :: y :: ys =>
    intro b hd
    simp only [dumpsElems, Option.bind_eq_bind, bind, Option.bind_eq_some,
      Option.pure_def, Option.some.injEq] at hd
    obtain ⟨ex, hex, tl, htl, hb⟩ := hd
    have h1 := cntFuel_le x ex hex
    have h2 := cntElemsFuel_le (y :: ys) tl htl
    rw [← hb]
    simp only [cntElemsFuel, List.length_append, List.length_cons, List.length_nil]
    omega

/-- The fuel a member loop needs is bounded by the body length plus two. -/
theorem cntMembersFuel_le (kvs : List (List Nat × PyValue)) :
    ∀ b, dumpsMembers kvs = some b → cntMembersFuel kvs ≤ b.length + 2 := by
  match kvs with
  | [] => intro b _; simp [cntMembersFuel]
  | [(k, v)] =>
    intro b hd
    simp only [dumpsMembers, Option.bind_eq_bind, bind, Option.bind_eq_some,
      Option.pure_def, Option.some.injEq] at hd
    obtain ⟨ev, hev, hb⟩ := hd
    have := cntFuel_le v ev hev
    rw [← hb]
    simp only [cntMembersFuel, List.length_append, List.length_cons, List.length_nil]
    omega
  | (k, v) :: m :: ms =>
    intro b hd
    simp only [dumpsMembers, Option.bind_eq_bind, bind, Option.bind_eq_some,
      Option.pure_def, Option.some.injEq] at hd
    obtain ⟨ev, hev, tl, htl, hb⟩ := hd
    have h1 := cntFuel_le v ev hev
    have h2 := cntMembersFuel_le (m :: ms) tl htl
    rw [← hb]
    simp only [cntMembersFuel, List.length_append, List.length_cons, List.length_nil]
    omega

end

theorem numBoundary_cons (d : Nat) (l : List Nat) (h1 : d < 48 ∨ 57 < d)
    (h2 : ¬ d = 0x2E) (h3 : ¬ d = 0x65) (h4 : ¬ d = 0x45) :
    numBoundary (d :: l) = true := by
  simp [numBoundary, isDigitCp]
  omega

/-- `parseValue` on a quote: scan a string literal. -/
theorem parseValue_step_quote (f : Nat) (l : List Nat) :
    parseValue (f + 1) (0x22 :: l) =
      (fun p => (PyValue.str p.1, p.2)) <$> scanString (l.length + 1) l := rfl

/-- `parseValue` on `[`: empty-array lookahead, then the element loop. -/
theorem parseValue_step_lbracket (f : Nat) (l : List Nat) :
    parseValue (f + 1) (0x5B :: l) =
      match skipWs l with
      | [] => none
      | c2 :: r2 =>
        if c2 = 0x5D then some (PyValue.list [], r2)
        else (fun p => (PyValue.list p.1, p.2)) <$> parseElemsTail f (c2 :: r2) := rfl

/-- `parseValue` on an opening brace: empty-object lookahead, then the
member loop. -/
theorem parseValue_step_lbrace (f : Nat) (l : List Nat) :
    parseValue (f + 1) (0x7B :: l) =
      match skipWs l with
      | [] => none
      | c2 :: r2 =>
        if c2 = 0x7D then some (PyValue.dict [], r2)
        else (fun p => (PyValue.dict p.1, p.2)) <$> parseMembersTail f (c2 :: r2) := rfl

/-- One unfolding step of `parseValue` on a non-empty input. -/
theorem parseValue_cons (f : Nat) (c : Nat) (l : List Nat) :
    parseValue (f + 1) (c :: l) =
      if c = 0x22 then (fun p => (PyValue.str p.1, p.2)) <$> scanString (l.length + 1) l
      else if c = 0x7B then
        match skipWs l with
        | [] => none
        | c2 :: r2 =>
          if c2 = 0x7D then some (PyValue.dict [], r2)
          else (fun p => (PyValue.dict p.1, p.2)) <$> parseMembersTail f (c2 :: r2)
      else if c = 0x5B then
        match skipWs l with
        | [] => none
        | c2 :: r2 =>
          if c2 = 0x5D then some (PyValue.list [], r2)
          else (fun p => (PyValue.list p.1, p.2)) <$> parseElemsTail f (c2 :: r2)
      else if c = 0x6E then
        match l with
        | 0x75 :: 0x6C :: 0x6C :: r => some (PyValue.null, r)
        | _ => none
      else if c = 0x74 then
        match l with
        | 0x72 :: 0x75 :: 0x65 :: r => some (PyValue.bool true, r)
        | _ => none
      else if c = 0x66 then
        match l with
        | 0x61 :: 0x6C :: 0x73 :: 0x65 :: r => some (PyValue.bool false, r)
        | _ => none
      else (fun p => (PyValue.int p.1, p.2)) <$> scanNumber (c :: l) := rfl

/-- One unfolding step of `parseElemsTail`. -/
theorem parseElemsTail_step (f : Nat) (s : List Nat) :
    parseElemsTail (f + 1) s =
      (parseValue f s).bind fun p =>
        match skipWs p.2 with
        | [] => none
        | c2 :: rest =>
          if c2 = 0x5D then some ([p.1], rest)
          else if c2 = 0x2C then
            (fun q => (p.1 :: q.1, q.2)) <$> parseElemsTail f (skipWs rest)
          else none := by
  show parseElemsTail (f + 1) s = _
  rw [parseElemsTail]
  rfl

/-- One unfolding step of `parseMembersTail` on input starting with the key
quote. -/
theorem parseMembersTail_step (f : Nat) (r : List Nat) :
    parseMembersTail (f + 1) (0x22 :: r) =
      (scanString (r.length + 1) r).bind fun p =>
        match skipWs p.2 with
        | [] => none
        | c2 :: r2 =>
          if c2 = 0x3A then
            (parseValue f (skipWs r2)).bind fun q =>
              match skipWs q.2 with
              | [] => none
              | c3 :: r4 =>
                if c3 = 0x7D then some ([(p.1, q.1)], r4)
                else if c3 = 0x2C then
                  (fun w => ((p.1, q.1) :: w.1, w.2)) <$> parseMembersTail f (skipWs r4)
                else none
          else none := by
  rw [parseMembersTail]
  simp

theorem parse_after_dumps : ∀ f : Nat,
    (∀ (v : PyValue) (e rest : List Nat), pyWf v = true → dumps v = some e →
      cntFuel v ≤ f → numBoundary rest = true →
      parseValue f (e ++ rest) = some (v, rest)) ∧
    (∀ (xs : List PyValue) (b rest : List Nat), pyWfList xs = true → xs ≠ [] →
      dumpsElems xs = some b → cntElemsFuel xs ≤ f →
      parseElemsTail f (b ++ (0x5D :: rest)) = some (xs, rest)) ∧
    (∀ (kvs : List (List Nat × PyValue)) (b rest : List Nat), pyWfDict kvs = true →
      kvs ≠ [] → dumpsMembers kvs = some b → cntMembersFuel kvs ≤ f →
      parseMembersTail f (b ++ (0x7D :: rest)) = some (kvs, rest)) := by
  intro f
  induction f using Nat.strong_induction_on with
  | _ f ih =>
  refine ⟨?_, ?_, ?_⟩
  · -- values
    intro v e rest hwf hd hcnt hbrest
    obtain ⟨f1, rfl⟩ : ∃ f1, f = f1 + 1 := ⟨f - 1, by have := cntFuel_pos v; omega⟩
    cases v with
    | null =>
      simp only [dumps, Option.some.injEq] at hd
      subst hd
      simp only [List.cons_append, List.nil_append, parseValue_cons]
      norm_num
    | bool b =>
      cases b <;> simp only [dumps, Option.some.injEq] at hd <;> subst hd <;>
        simp only [List.cons_append, List.nil_append, parseValue_cons] <;> norm_num
    | int n =>
      simp only [dumps, Option.some.injEq] at hd
      subst hd
      by_cases hneg : n < 0
      · have he : encodeInt n = 0x2D :: natDigits ((-n).toNat) := by
          simp [encodeInt, hneg]
        rw [he, List.cons_append, parseValue_cons]
        norm_num
        have hre : (0x2D : Nat) :: (natDigits ((-n).toNat) ++ rest) =
            encodeInt n ++ rest := by
          rw [he]; simp
        rw [hre, scanNumber_encodeInt n rest hbrest]
      · have he : encodeInt n = natDigits n.toNat := by simp [encodeInt, hneg]
        obtain ⟨_, _, h, t, hcons, hge, hle, _⟩ :=
          natDigitsGo_spec (n.toNat + 1) n.toNat (by omega)
        have hcons2 : natDigits n.toNat = h :: t := hcons
        rw [he, hcons2, List.cons_append, parseValue_cons]
        have h34 : ¬ h = 0x22 := by omega
        have h7B : ¬ h = 0x7B := by omega
        have h5B : ¬ h = 0x5B := by omega
        have h6E : ¬ h = 0x6E := by omega
        have h74 : ¬ h = 0x74 := by omega
        have h66 : ¬ h = 0x66 := by omega
        simp only [h34, h7B, h5B, h6E, h74, h66, if_neg, ite_false]
        have hre : h :: (t ++ rest) = encodeInt n ++ rest := by
          rw [he, hcons2]; simp
        rw [hre, scanNumber_encodeInt n rest hbrest]
        rfl
    | str s =>
      simp only [dumps, Option.some.injEq] at hd
      subst hd
      simp only [pyWf] at hwf
      simp only [encodeString, List.cons_append, List.append_assoc, List.singleton_append,
        List.nil_append]
      rw [parseValue_step_quote]
      rw [scanString_encodeString s hwf _ rest (by
        have h1 := flatMap_escapeCp_length s
        simp only [List.length_append, List.length_cons]
        omega)]
      rfl
    | list xs =>
      simp only [dumps, Option.bind_eq_bind, bind, Option.bind_eq_some,
        Option.pure_def, Option.some.injEq] at hd
      obtain ⟨body, hbody, hb⟩ := hd
      subst hb
      rw [List.cons_append, List.cons_append, parseValue_step_lbracket]
      cases xs with
      | nil =>
        simp only [dumpsElems, Option.some.injEq] at hbody
        subst hbody
        rw [show (([] : List Nat) ++ [0x5D]) ++ rest = 0x5D :: rest by simp]
        rw [skipWs_cons_of_not_ws 0x5D rest (by decide)]
        simp
      | cons x xs2 =>
        obtain ⟨ex, tl, hex, hbodyeq⟩ := dumpsElems_decompose x xs2 body hbody
        obtain ⟨c0, t0, hex0, hc0ws, hc0ne5D, _⟩ := dumps_head_not_ws x ex hex
        have hshape : (body ++ [0x5D]) ++ rest = c0 :: ((t0 ++ tl) ++ (0x5D :: rest)) := by
          rw [hbodyeq, hex0]; simp
        rw [hshape, skipWs_cons_of_not_ws c0 _ hc0ws]
        simp only [hc0ne5D, if_neg, ite_false]
        have hback : c0 :: ((t0 ++ tl) ++ (0x5D :: rest)) = body ++ (0x5D :: rest) := by
          rw [hbodyeq, hex0]; simp
        rw [hback]
        have hcnt2 : cntElemsFuel (x :: xs2) ≤ f1 := by
          simp only [cntFuel] at hcnt
          omega
        have hwf2 : pyWfList (x :: xs2) = true := by simpa [pyWf] using hwf
        rw [(ih f1 (by omega)).2.1 (x :: xs2) body rest hwf2 (by simp) hbody hcnt2]
        rfl
    | dict kvs =>
      simp only [dumps, Option.bind_eq_bind, bind, Option.bind_eq_some,
        Option.pure_def, Option.some.injEq] at hd
      obtain ⟨body, hbody, hb⟩ := hd
      subst hb
      rw [List.cons_append, List.cons_append, parseValue_step_lbrace]
      cases kvs with
      | nil =>
        simp only [dumpsMembers, Option.some.injEq] at hbody
        subst hbody
        rw [show (([] : List Nat) ++ [0x7D]) ++ rest = 0x7D :: rest by simp]
        rw [skipWs_cons_of_not_ws 0x7D rest (by decide)]
        simp
      | cons kv kvs2 =>
        obtain ⟨tl, hbody0⟩ := dumpsMembers_head kv kvs2 body hbody
        have hshape : (body ++ [0x7D]) ++ rest = 0x22 :: (tl ++ (0x7D :: rest)) := by
          rw [hbody0]; simp
        rw [hshape, skipWs_cons_of_not_ws 0x22 _ (by decide)]
        norm_num
        have hback : (0x22 : Nat) :: (tl ++ (0x7D :: rest)) = body ++ (0x7D :: rest) := by
          rw [hbody0]; simp
        rw [hback]
        have hcnt2 : cntMembersFuel (kv :: kvs2) ≤ f1 := by
          simp only [cntFuel] at hcnt
          omega
        have hwf2 : pyWfDict (kv :: kvs2) = true := by simpa [pyWf] using hwf
        rw [(ih f1 (by omega)).2.2 (kv :: kvs2) body rest hwf2 (by simp) hbody hcnt2]
    | nonSerializable tag => simp [dumps] at hd
  · -- array element loop
    intro xs b rest hwf hne hd hcnt
    match xs, hne with
    | x :: xs2, _ =>
    obtain ⟨f1, rfl⟩ : ∃ f1, f = f1 + 1 :=
      ⟨f - 1, by have := cntElemsFuel_pos x xs2; omega⟩
    have hwfx : pyWf x = true := by
      simp only [pyWfList, Bool.and_eq_true] at hwf
      exact hwf.1
    rw [parseElemsTail_step]
    cases xs2 with
    | nil =>
      simp only [dumpsElems] at hd
      have hcntx : cntFuel x ≤ f1 := by simp only [cntElemsFuel] at hcnt; omega
      rw [(ih f1 (by omega)).1 x b (0x5D :: rest) hwfx hd hcntx
        (numBoundary_cons 0x5D rest (by omega) (by omega) (by omega) (by omega))]
      rw [Option.some_bind]
      rw [show skipWs (0x5D :: rest) = 0x5D :: rest from
        skipWs_cons_of_not_ws 0x5D rest (by decide)]
      simp
    | cons y ys =>
      simp only [dumpsElems, Option.bind_eq_bind, bind, Option.bind_eq_some,
        Option.pure_def, Option.some.injEq] at hd
      obtain ⟨ex, hex, tl, htl, hb⟩ := hd
      subst hb
      have hcntx : cntFuel x ≤ f1 := by simp only [cntElemsFuel] at hcnt; omega
      have hcnty : cntElemsFuel (y :: ys) ≤ f1 := by
        simp only [cntElemsFuel] at hcnt ⊢
        omega
      have hwfy : pyWfList (y :: ys) = true := by
        simp only [pyWfList, Bool.and_eq_true] at hwf ⊢
        exact hwf.2
      have hshape : ((ex ++ [0x2C, 0x20] ++ tl) ++ (0x5D :: rest)) =
          ex ++ (0x2C :: 0x20 :: (tl ++ (0x5D :: rest))) := by simp
      rw [hshape]
      rw [(ih f1 (by omega)).1 x ex (0x2C :: 0x20 :: (tl ++ (0x5D :: rest))) hwfx hex hcntx
        (numBoundary_cons 0x2C _ (by omega) (by omega) (by omega) (by omega))]
      rw [Option.some_bind]
      rw [show skipWs (0x2C :: 0x20 :: (tl ++ (0x5D :: rest))) =
          0x2C :: 0x20 :: (tl ++ (0x5D :: rest)) from
        skipWs_cons_of_not_ws 0x2C _ (by decide)]
      norm_num
      rw [skipWs_cons_of_ws 0x20 _ (by decide)]
      obtain ⟨ey, tl2, hey, htleq⟩ := dumpsElems_decompose y ys tl htl
      obtain ⟨c1, t1, hey0, hc1ws, _, _⟩ := dumps_head_not_ws y ey hey
      have htl0 : tl ++ (0x5D :: rest) = c1 :: ((t1 ++ tl2) ++ (0x5D :: rest)) := by
        rw [htleq, hey0]; simp
      rw [htl0, skipWs_cons_of_not_ws c1 _ hc1ws, ← htl0]
      rw [(ih f1 (by omega)).2.1 (y :: ys) tl rest hwfy (by simp) htl hcnty]
  · -- object member loop
    intro kvs b rest hwf hne hd hcnt
    match kvs, hne with
    | (k, v) :: kvs2, _ =>
    obtain ⟨f1, rfl⟩ : ∃ f1, f = f1 + 1 :=
      ⟨f - 1, by have := cntMembersFuel_pos (k, v) kvs2; omega⟩
    have hwfk : k.all scalarCp = true := by
      simp only [pyWfDict, Bool.and_eq_true] at hwf
      exact hwf.1.1
    have hwfv : pyWf v = true := by
      simp only [pyWfDict, Bool.and_eq_true] at hwf
      exact hwf.1.2
    cases kvs2 with
    | nil =>
      simp only [dumpsMembers, Option.bind_eq_bind, bind, Option.bind_eq_some,
        Option.pure_def, Option.some.injEq] at hd
      obtain ⟨ev, hev, hb⟩ := hd
      subst hb
      have hcntv : cntFuel v ≤ f1 := by simp only [cntMembersFuel] at hcnt; omega
      have hshape : ((encodeString k ++ [0x3A, 0x20] ++ ev) ++ (0x7D :: rest)) =
          0x22 :: (k.flatMap escapeCp ++
            (0x22 :: (0x3A :: 0x20 :: (ev ++ (0x7D :: rest))))) := by
        simp [encodeString]
      rw [hshape, parseMembersTail_step]
      rw [scanString_encodeString k hwfk _ _ (by
        have := flatMap_escapeCp_length k
        simp only [List.length_append, List.length_cons]
        omega)]
      rw [Option.some_bind]
      rw [show skipWs (0x3A :: 0x20 :: (ev ++ (0x7D :: rest))) =
          0x3A :: 0x20 :: (ev ++ (0x7D :: rest)) from
        skipWs_cons_of_not_ws 0x3A _ (by decide)]
      norm_num
      rw [skipWs_cons_of_ws 0x20 _ (by decide)]
      obtain ⟨c1, t1, hev0, hc1ws, _, _⟩ := dumps_head_not_ws v ev hev
      have hev1 : ev ++ (0x7D :: rest) = c1 :: (t1 ++ (0x7D :: rest)) := by
        rw [hev0]; simp
      rw [hev1, skipWs_cons_of_not_ws c1 _ hc1ws, ← hev1]
      rw [(ih f1 (by omega)).1 v ev (0x7D :: rest) hwfv hev hcntv
        (numBoundary_cons 0x7D rest (by omega) (by omega) (by omega) (by omega))]
      rw [Option.some_bind]
      rw [show skipWs (0x7D :: rest) = 0x7D :: rest from
        skipWs_cons_of_not_ws 0x7D rest (by decide)]
      simp
    | cons m ms =>
      simp only [dumpsMembers, Option.bind_eq_bind, bind, Option.bind_eq_some,
        Option.pure_def, Option.some.injEq] at hd
      obtain ⟨ev, hev, tl, htl, hb⟩ := hd
      subst hb
      have hcntv : cntFuel v ≤ f1 := by simp only [cntMembersFuel] at hcnt; omega
      have hcntm : cntMembersFuel (m :: ms) ≤ f1 := by
        simp only [cntMembersFuel] at hcnt ⊢
        omega
      have hwfm : pyWfDict (m :: ms) = true := by
        simp only [pyWfDict, Bool.and_eq_true] at hwf ⊢
        exact hwf.2
      have hshape : ((encodeString k ++ [0x3A, 0x20] ++ ev ++ [0x2C, 0x20] ++ tl) ++
          (0x7D :: rest)) =
          0x22 :: (k.flatMap escapeCp ++
            (0x22 :: (0x3A :: 0x20 ::
              (ev ++ (0x2C :: 0x20 :: (tl ++ (0x7D :: rest))))))) := by
        simp [encodeString]
      rw [hshape, parseMembersTail_step]
      rw [scanString_encodeString k hwfk _ _ (by
        have := flatMap_escapeCp_length k
        simp only [List.length_append, List.length_cons]
        omega)]
      rw [Option.some_bind]
      rw [show skipWs (0x3A :: 0x20 :: (ev ++ (0x2C :: 0x20 :: (tl ++ (0x7D :: rest))))) =
          0x3A :: 0x20 :: (ev ++ (0x2C :: 0x20 :: (tl ++ (0x7D :: rest)))) from
        skipWs_cons_of_not_ws 0x3A _ (by decide)]
      norm_num
      rw [skipWs_cons_of_ws 0x20 _ (by decide)]
      obtain ⟨c1, t1, hev0, hc1ws, _, _⟩ := dumps_head_not_ws v ev hev
      have hev1 : ev ++ (0x2C :: 0x20 :: (tl ++ (0x7D :: rest))) =
          c1 :: (t1 ++ (0x2C :: 0x20 :: (tl ++ (0x7D :: rest)))) := by
        rw [hev0]; simp
      rw [hev1, skipWs_cons_of_not_ws c1 _ hc1ws, ← hev1]
      rw [(ih f1 (by omega)).1 v ev (0x2C :: 0x20 :: (tl ++ (0x7D :: rest))) hwfv hev hcntv
        (numBoundary_cons 0x2C _ (by omega) (by omega) (by omega) (by omega))]
      rw [Option.some_bind]
      rw [show skipWs (0x2C :: 0x20 :: (tl ++ (0x7D :: rest))) =
          0x2C :: 0x20 :: (tl ++ (0x7D :: rest)) from
        skipWs_cons_of_not_ws 0x2C _ (by decide)]
      norm_num
      rw [skipWs_cons_of_ws 0x20 _ (by decide)]
      obtain ⟨tl2, htl0⟩ := dumpsMembers_head m ms tl htl
      have htl1 : tl ++ (0x7D :: rest) = 0x22 :: (tl2 ++ (0x7D :: rest)) := by
        rw [htl0]; simp
      rw [htl1, skipWs_cons_of_not_ws 0x22 _ (by decide), ← htl1]
      rw [(ih f1 (by omega)).2.2 (m :: ms) tl rest hwfm (by simp) htl hcntm]

/-! ## Lifecycle theorems -/

/-- When every poll observes an unset exit status, the poll loop performs
all its sleeps and reports no exit. -/
theorem closePoll_all_none (env : CloseEnv) :
    ∀ n k, (∀ i, k ≤ i → i < k + n → env.rc i = none) →
      closePoll env n k = (List.replicate n (CloseAct.sleepMs 50), false) := by
  intro n
  induction n with
  | zero => intro k _; rfl
  | succ n ih =>
    intro k h
    have h0 : env.rc k = none := h k (Nat.le_refl k) (by omega)
    have ih' := ih (k + 1) (fun i hi1 hi2 => h i (by omega) (by omega))
    simp [closePoll, h0, ih', List.replicate_succ]

/-- C8 (confirmed): `start()` on an already-started supervisor fails fast
with `AssertionError` (spawning nothing), and on a fresh supervisor it
succeeds, spawning the child, scheduling both read loops, and registering
the atexit hook when requested. -/
theorem Process.start_assert_or_spawn (st : Process) (pid : Nat) (use_atexit : Bool) :
    (∀ p, st.process = some p →
      Process.start st pid use_atexit = Except.error PyError.assertionError) ∧
    (st.process = none →
      Process.start st pid use_atexit =
        Except.ok ({ process := some pid },
          [StartAct.spawn, StartAct.watchStdout, StartAct.watchStderr] ++
            if use_atexit then [StartAct.registerAtexit] else [])) := by
  constructor
  · intro p hp
    simp [Process.start, hp]
  · intro hp
    simp [Process.start, hp]

/-- Witness for C8 at concrete states. -/
theorem Process.start_assert_or_spawn_witness :
    Process.start ⟨some 7⟩ 9 true = Except.error PyError.assertionError ∧
    Process.start ⟨none⟩ 9 true =
      Except.ok ({ process := some 9 },
        [StartAct.spawn, StartAct.watchStdout, StartAct.watchStderr,
         StartAct.registerAtexit]) :=
  ⟨(Process.start_assert_or_spawn ⟨some 7⟩ 9 true).1 7 rfl,
   (Process.start_assert_or_spawn ⟨none⟩ 9 true).2 rfl⟩

/-- C6 (confirmed): `close()` on a supervisor that was never started, or
whose child's exit status is already set, returns at once with no actions
and unchanged state; hence a second `close()` under the same precondition
is again a no-op. -/
theorem Process.close_idempotent (st : Process) (env1 env2 : CloseEnv)
    (h1 : st.process = none ∨ (env1.rc 0).isSome)
    (h2 : st.process = none ∨ (env2.rc 0).isSome) :
    Process.close st env1 = Except.ok (st, []) ∧
    Process.close st env2 = Except.ok (st, []) := by
  have key : ∀ env : CloseEnv, st.process = none ∨ (env.rc 0).isSome →
      Process.close st env = Except.ok (st, []) := by
    intro env h
    match hp : st.process with
    | none => simp [Process.close, hp]
    | some p =>
      rcases h with h | h
      · simp [hp] at h
      · rcases Option.isSome_iff_exists.mp h with ⟨c, hc⟩
        simp [Process.close, hp, hc]
  exact ⟨key env1 h1, key env2 h2⟩

/-- Witness for C6: never-started supervisor, two successive calls. -/
theorem Process.close_idempotent_witness :
    Process.close ⟨none⟩ ⟨fun _ => none, .ok, .ok⟩ = Except.ok (⟨none⟩, []) ∧
    Process.close ⟨none⟩ ⟨fun _ => some 0, .ok, .ok⟩ = Except.ok (⟨none⟩, []) :=
  Process.close_idempotent ⟨none⟩ ⟨fun _ => none, .ok, .ok⟩ ⟨fun _ => some 0, .ok, .ok⟩
    (Or.inl rfl) (Or.inl rfl)

/-- The polling loop reads only the `rc` oracle of its environment. -/
theorem closePoll_only_rc (rc : Nat → Option Int) (t1 k1 t2 k2 : SigOutcome) :
    ∀ n k, closePoll ⟨rc, t1, k1⟩ n k = closePoll ⟨rc, t2, k2⟩ n k := by
  intro n
  induction n with
  | zero => intro k; rfl
  | succ n ih =>
    intro k
    cases hrc : rc k <;> simp [closePoll, hrc, ih (k + 1)]

/-- C7 (confirmed): during `close()`, an `OSError` from `terminate()` or
`kill()` is suppressed exactly when its `errno` is `ESRCH` (the call then
behaves as if the signal had been delivered), and propagates to the caller
otherwise. -/
theorem Process.close_esrch_suppressed (st : Process) (p : Nat) (env : CloseEnv)
    (hp : st.process = some p) (h0 : env.rc 0 = none) :
    (∀ e, env.termRes = .err e → e ≠ ESRCH → Process.close st env = Except.error e) ∧
    (env.termRes = .err ESRCH →
      Process.close st env = Process.close st { env with termRes := .ok }) ∧
    (∀ e, env.killRes = .err e → e ≠ ESRCH →
      (env.termRes = .ok ∨ env.termRes = .err ESRCH) →
      (closePoll env 10 1).2 = false → Process.close st env = Except.error e) ∧
    (env.killRes = .err ESRCH →
      Process.close st env = Process.close st { env with killRes := .ok }) := by
  refine ⟨?_, ?_, ?_, ?_⟩
  · intro e he hne
    have hne3 : ¬ e = 3 := by simpa [ESRCH] using hne
    simp [Process.close, hp, h0, he, hne3, ESRCH]
  · intro he
    have h1 : closePoll { env with termRes := SigOutcome.ok } 10 1 = closePoll env 10 1 :=
      closePoll_only_rc env.rc _ _ _ _ 10 1
    simp [Process.close, hp, h0, he, ESRCH, h1]
  · intro e he hne hterm hpoll
    have hne3 : ¬ e = 3 := by simpa [ESRCH] using hne
    rcases hterm with ht | ht <;>
      simp [Process.close, hp, h0, ht, he, hne3, hpoll, ESRCH]
  · intro he
    rcases hpoll : closePoll env 10 1 with ⟨sleeps, exited⟩
    have hpoll' : ∀ t k, closePoll ⟨env.rc, t, k⟩ 10 1 = (sleeps, exited) :=
      fun t k => (closePoll_only_rc env.rc t k env.termRes env.killRes 10 1).trans hpoll
    rcases ht : env.termRes with _ | e' <;> cases exited <;>
      simp [Process.close, hp, h0, ht, he, hpoll', ESRCH]

/-- Witness for C7: a non-`ESRCH` failure of `terminate()` propagates. -/
theorem Process.close_esrch_suppressed_witness :
    Process.close ⟨some 4⟩ ⟨fun _ => none, .err 13, .ok⟩ = Except.error 13 :=
  (Process.close_esrch_suppressed ⟨some 4⟩ 4 ⟨fun _ => none, .err 13, .ok⟩ rfl rfl).1
    13 rfl (by decide)

/-- Helper for C2 and C5: on a started process whose exit status stays
unset at every observation through the budget, with signal failures limited
to the expected `ESRCH` race, `close()` runs the full trace — terminate,
ten 50ms sleeps, kill — and returns with the state unchanged. -/
theorem Process.close_full_trace (st : Process) (p : Nat) (env : CloseEnv)
    (hp : st.process = some p) (hrc : ∀ i, i ≤ 10 → env.rc i = none)
    (hterm : env.termRes = .ok ∨ env.termRes = .err ESRCH)
    (hkill : env.killRes = .ok ∨ env.killRes = .err ESRCH) :
    Process.close st env =
      Except.ok (st, CloseAct.terminate ::
        (List.replicate 10 (CloseAct.sleepMs 50) ++ [CloseAct.kill])) := by
  have hpoll := closePoll_all_none env 10 1 (fun i h1 h2 => hrc i (by omega))
  have h0 : env.rc 0 = none := hrc 0 (by omega)
  rcases hterm with ht | ht <;> rcases hkill with hk | hk <;>
    simp [Process.close, hp, h0, ht, hk, hpoll, ESRCH]

/-- C2 counterexample: with a child that never exits (`rc` constantly
`none`: no observation ever confirms the process gone), `close()` still
returns successfully, immediately after issuing the kill — so "`close()`
returns only after the process is confirmed gone" fails on the code. -/
theorem Process.close_returns_unconfirmed :
    Process.close ⟨some 1⟩ ⟨fun _ => none, .ok, .ok⟩ =
      Except.ok (⟨some 1⟩, CloseAct.terminate ::
        (List.replicate 10 (CloseAct.sleepMs 50) ++ [CloseAct.kill])) ∧
    ((List.range 12).all
      fun i => (CloseEnv.rc ⟨fun _ => none, .ok, .ok⟩ i).isNone) = true :=
  ⟨rfl, rfl⟩

/-- C2 as amended: when the exit status stays unset throughout the poll
budget (10 polls at 50ms), `close()` issues the forceful kill after the
budget elapses and then returns at once, without waiting for or confirming
the process's termination. -/
theorem Process.close_kill_after_budget (st : Process) (p : Nat) (env : CloseEnv)
    (hp : st.process = some p) (hrc : ∀ i, i ≤ 10 → env.rc i = none)
    (hterm : env.termRes = .ok) (hkill : env.killRes = .ok) :
    Process.close st env =
      Except.ok (st, CloseAct.terminate ::
        (List.replicate 10 (CloseAct.sleepMs 50) ++ [CloseAct.kill])) :=
  Process.close_full_trace st p env hp hrc (Or.inl hterm) (Or.inl hkill)

/-- Witness for the amended C2. -/
theorem Process.close_kill_after_budget_witness :
    Process.close ⟨some 2⟩ ⟨fun _ => none, .ok, .ok⟩ =
      Except.ok (⟨some 2⟩, CloseAct.terminate ::
        (List.replicate 10 (CloseAct.sleepMs 50) ++ [CloseAct.kill])) :=
  Process.close_kill_after_budget ⟨some 2⟩ 2 ⟨fun _ => none, .ok, .ok⟩ rfl
    (fun _ _ => rfl) rfl rfl

/-- C5 counterexample: `close()` on a started, already-exited child returns
with the `process` field still set — the supervisor keeps its reference to
the child handle, contradicting "the reference is dropped, leaving the
supervisor's process field unset". -/
theorem Process.close_keeps_reference :
    Process.close ⟨some 1⟩ ⟨fun _ => some 0, .ok, .ok⟩ = Except.ok (⟨some 1⟩, []) ∧
    (⟨some 1⟩ : Process).process ≠ none :=
  ⟨rfl, by simp⟩

/-- C5 as amended: whenever `close()` returns normally it leaves the
supervisor's state unchanged — in particular `self._process` is never
cleared; the reference is only dropped when the supervisor itself is
discarded. -/
theorem Process.close_state_unchanged (st : Process) (env : CloseEnv)
    (st' : Process) (acts : List CloseAct)
    (h : Process.close st env = Except.ok (st', acts)) : st' = st := by
  unfold Process.close at h
  rcases hp : st.process with _ | p <;> rw [hp] at h
  · simp at h; exact h.1.symm
  · rcases h0 : env.rc 0 with _ | c <;> rw [h0] at h
    · rcases hpoll : closePoll env 10 1 with ⟨sleeps, exited⟩
      rcases ht : env.termRes with _ | e <;> rw [ht] at h
      · rw [hpoll] at h
        cases exited <;> simp at h
        · rcases hk : env.killRes with _ | e' <;> rw [hk] at h
          · simp at h; exact h.1.symm
          · by_cases he : e' = ESRCH <;> simp [he] at h
            exact h.1.symm
        · exact h.1.symm
      · by_cases he : e = ESRCH <;> simp [he] at h
        rw [hpoll] at h
        cases exited <;> simp at h
        · rcases hk : env.killRes with _ | e' <;> rw [hk] at h
          · simp at h; exact h.1.symm
          · by_cases he' : e' = ESRCH <;> simp [he'] at h
            exact h.1.symm
        · exact h.1.symm
    · simp at h; exact h.1.symm

/-- The stdout read loop, started at iteration `i`: the lines passed to the
callback form a prefix of the incoming lines; every processed iteration
observed an unset exit status and a non-empty read; and if the loop stopped
before exhausting the stream, it did so because the exit status was set or
a read returned empty. -/
theorem Process.read_stdout_spec (rc : Nat → Option Int) :
    ∀ (reads : List (List Nat)) (i : Nat),
      (∃ t, reads = Process.read_stdout rc i reads ++ t) ∧
      (∀ j, j < (Process.read_stdout rc i reads).length →
        rc (i + j) = none ∧ reads.getD j [] ≠ [] ∧
        (Process.read_stdout rc i reads).getD j [] = reads.getD j []) ∧
      ((Process.read_stdout rc i reads).length < reads.length →
        rc (i + (Process.read_stdout rc i reads).length) ≠ none ∨
        reads.getD (Process.read_stdout rc i reads).length [] = []) := by
  intro reads
  induction reads with
  | nil =>
    intro i
    exact ⟨⟨[], rfl⟩, fun j hj => by simp [Process.read_stdout] at hj, by
      intro h; simp [Process.read_stdout] at h⟩
  | cons line rest ih =>
    intro i
    rcases hrc : rc i with _ | c
    · by_cases hline : line = []
      · refine ⟨⟨line :: rest, by simp [Process.read_stdout, hrc, hline]⟩, ?_, ?_⟩
        · intro j hj
          simp [Process.read_stdout, hrc, hline] at hj
        · intro _
          right
          simp [Process.read_stdout, hrc, hline]
      · have hstep : Process.read_stdout rc i (line :: rest) =
            line :: Process.read_stdout rc (i + 1) rest := by
          simp [Process.read_stdout, hrc, hline]
        obtain ⟨⟨t, ht⟩, hmid, hstop⟩ := ih (i + 1)
        refine ⟨⟨t, by rw [hstep]; simpa using ht⟩, ?_, ?_⟩
        · intro j hj
          match j with
          | 0 => simpa [hstep, hrc] using hline
          | j + 1 =>
            rw [hstep] at hj
            simp only [List.length_cons, Nat.add_lt_add_iff_right] at hj
            have := hmid j hj
            constructor
            · have : rc (i + 1 + j) = none := this.1
              simpa [Nat.add_assoc, Nat.add_comm 1 j] using this
            · simpa [hstep] using this.2
        · intro hlt
          rw [hstep] at hlt ⊢
          simp only [List.length_cons, Nat.add_lt_add_iff_right] at hlt
          have := hstop hlt
          simpa [Nat.add_assoc, Nat.add_comm 1 _] using this
    · refine ⟨⟨line :: rest, by simp [Process.read_stdout, hrc]⟩, ?_, ?_⟩
      · intro j hj
        simp [Process.read_stdout, hrc] at hj
      · intro _
        left
        simp [Process.read_stdout, hrc]

/-- C9 (confirmed): the stdout loop processes lines strictly in arrival
order — the callback sequence is a prefix of the read sequence, each
processed line was read while the exit status was unset and was non-empty,
and the loop stops early only because the exit status became set or a read
returned empty (end-of-stream).  Sequencing is by construction: the model
recurses only after the callback of the current line is complete. -/
theorem Process.read_stdout_ordered (rc : Nat → Option Int) (reads : List (List Nat)) :
    (∃ t, reads = Process.read_stdout rc 0 reads ++ t) ∧
    (∀ j, j < (Process.read_stdout rc 0 reads).length →
      rc j = none ∧ reads.getD j [] ≠ [] ∧
      (Process.read_stdout rc 0 reads).getD j [] = reads.getD j []) ∧
    ((Process.read_stdout rc 0 reads).length < reads.length →
      rc (Process.read_stdout rc 0 reads).length ≠ none ∨
      reads.getD (Process.read_stdout rc 0 reads).length [] = []) := by
  have h := Process.read_stdout_spec rc reads 0
  simpa using h

/-- Witness for C9: iteration 1 of a concrete run processed line `[66]`
with the exit status unset. -/
theorem Process.read_stdout_ordered_witness :
    (fun _ : Nat => (none : Option Int)) 1 = none ∧
    [[65], [66], [], [67]].getD 1 ([] : List Nat) ≠ [] ∧
    (Process.read_stdout (fun _ => none) 0 [[65], [66], [], [67]]).getD 1 [] =
      [[65], [66], [], [67]].getD 1 [] :=
  (Process.read_stdout_ordered (fun _ => none) [[65], [66], [], [67]]).2.1 1 (by decide)

/-! ## RPC framing theorems -/

/-- C4 (confirmed): a stdout line that does not begin with `b'!RPC '` is
never passed to the message handler and never written back; it is forwarded
to the logger as a single warning, decoded with invalid bytes replaced
(never raising) and trailing whitespace stripped. -/
theorem RPCProcess.stdout_callback_nonmarker (handler : PyValue → Option PyValue)
    (line : List Nat) (h : rpcMarker.isPrefixOf line = false) :
    RPCProcess.stdout_callback handler line =
      Except.ok ⟨[], [], [pyRstrip (utf8DecodeReplace line)]⟩ := by
  simp [RPCProcess.stdout_callback, h]

/-- Witness for C4: the line `b'hello\xff\n'` (with an undecodable byte)
produces exactly one warning `hello\xfffd` and reaches no handler. -/
theorem RPCProcess.stdout_callback_nonmarker_witness :
    RPCProcess.stdout_callback (fun _ => some PyValue.null)
      [104, 101, 108, 108, 111, 0xFF, 10] =
      Except.ok ⟨[], [], [[104, 101, 108, 108, 111, 0xFFFD]]⟩ :=
  (RPCProcess.stdout_callback_nonmarker (fun _ => some PyValue.null)
    [104, 101, 108, 108, 111, 0xFF, 10] (by decide)).trans rfl

/-- C10 (confirmed): `send_message` is not atomic on encoding failure — when
`json.dumps` raises, the five marker bytes `b'!RPC '` have already been
written, and nothing else follows (no payload, no newline) as the failure
propagates. -/
theorem RPCProcess.send_message_partial_on_error (message : PyValue)
    (h : dumps message = none) :
    RPCProcess.send_message message = ([rpcMarker], Except.error PyError.typeError) := by
  simp [RPCProcess.send_message, h]

/-- Witness for C10 at a non-serializable message. -/
theorem RPCProcess.send_message_partial_on_error_witness :
    dumps (PyValue.nonSerializable 0) = none ∧
    RPCProcess.send_message (PyValue.nonSerializable 0) =
      ([rpcMarker], Except.error PyError.typeError) :=
  ⟨rfl, RPCProcess.send_message_partial_on_error (PyValue.nonSerializable 0) rfl⟩

/-- C3 (confirmed): a marker line whose payload decodes (UTF-8, then JSON)
is dispatched to the message handler; the handler's invocation completes
before its result is inspected (the model is sequential by construction),
and a non-`None` result is immediately framed and written back through
`send_message`, while a `None` result writes nothing. -/
theorem RPCProcess.stdout_callback_dispatch (handler : PyValue → Option PyValue)
    (payload cps : List Nat) (message : PyValue)
    (hdec : utf8Decode payload = some cps) (hloads : loads cps = some message) :
    (handler message = none →
      RPCProcess.stdout_callback handler (rpcMarker ++ payload) =
        Except.ok ⟨[message], [], []⟩) ∧
    (∀ ret ws, handler message = some ret →
      RPCProcess.send_message ret = (ws, Except.ok ()) →
      RPCProcess.stdout_callback handler (rpcMarker ++ payload) =
        Except.ok ⟨[message], ws, []⟩) := by
  have hpref : rpcMarker.isPrefixOf (rpcMarker ++ payload) = true := by
    exact List.isPrefixOf_iff_prefix.mpr (List.prefix_append rpcMarker payload)
  have hdrop : (rpcMarker ++ payload).drop 5 = payload := by
    have : (rpcMarker ++ payload).drop rpcMarker.length = payload :=
      List.drop_left rpcMarker payload
    simpa [rpcMarker] using this
  constructor
  · intro hnone
    simp [RPCProcess.stdout_callback, hpref, hdrop, hdec, hloads, hnone]
  · intro ret ws hret hsend
    simp [RPCProcess.stdout_callback, hpref, hdrop, hdec, hloads, hret, hsend]

/-- Witness for C3: a handler replying `{"cmd": "pong"}` to
`b'!RPC {"cmd": "ping"}\n'` causes exactly that reply to be framed and
written. -/
theorem RPCProcess.stdout_callback_dispatch_witness :
    RPCProcess.stdout_callback
      (fun _ => some (PyValue.dict [([99, 109, 100], PyValue.str [112, 111, 110, 103])]))
      (rpcMarker ++
        [123, 34, 99, 109, 100, 34, 58, 32, 34, 112, 105, 110, 103, 34, 125, 10]) =
      Except.ok ⟨[PyValue.dict [([99, 109, 100], PyValue.str [112, 105, 110, 103])]],
        [rpcMarker,
         [123, 34, 99, 109, 100, 34, 58, 32, 34, 112, 111, 110, 103, 34, 125],
         [10]], []⟩ :=
  (RPCProcess.stdout_callback_dispatch
    (fun _ => some (PyValue.dict [([99, 109, 100], PyValue.str [112, 111, 110, 103])]))
    [123, 34, 99, 109, 100, 34, 58, 32, 34, 112, 105, 110, 103, 34, 125, 10]
    [123, 34, 99, 109, 100, 34, 58, 32, 34, 112, 105, 110, 103, 34, 125, 10]
    (PyValue.dict [([99, 109, 100], PyValue.str [112, 105, 110, 103])])
    rfl rfl).2
    (PyValue.dict [([99, 109, 100], PyValue.str [112, 111, 110, 103])])
    [rpcMarker,
     [123, 34, 99, 109, 100, 34, 58, 32, 34, 112, 111, 110, 103, 34, 125],
     [10]]
    rfl rfl

/-- Witness for the amended C5. -/
theorem Process.close_state_unchanged_witness :
    Process.close ⟨some 3⟩ ⟨fun _ => some 0, .ok, .ok⟩ = Except.ok (⟨some 3⟩, []) ∧
    (⟨some 3⟩ : Process) = ⟨some 3⟩ :=
  ⟨rfl, Process.close_state_unchanged ⟨some 3⟩ ⟨fun _ => some 0, .ok, .ok⟩
    ⟨some 3⟩ [] rfl⟩

theorem hexDigitCp_lt (n : Nat) (h : n < 16) : hexDigitCp n < 128 := by
  unfold hexDigitCp
  split_ifs <;> omega

theorem hex4_ascii (n : Nat) : ∀ d ∈ hex4 n, d < 128 := by
  intro d hd
  simp only [hex4, List.mem_cons, List.not_mem_nil, or_false] at hd
  rcases hd with h | h | h | h <;> subst h <;>
    exact hexDigitCp_lt _ (Nat.mod_lt _ (by norm_num))

theorem escapeCp_ascii (c : Nat) : ∀ d ∈ escapeCp c, d < 128 := by
  intro d hd
  unfold escapeCp at hd
  split_ifs at hd with h1 h2 h3 h4 h5 h6 h7 h8 h9
  · simp only [List.mem_cons, List.not_mem_nil, or_false] at hd; omega
  · simp only [List.mem_cons, List.not_mem_nil, or_false] at hd; omega
  · simp only [List.mem_cons, List.not_mem_nil, or_false] at hd; omega
  · simp only [List.mem_cons, List.not_mem_nil, or_false] at hd; omega
  · simp only [List.mem_cons, List.not_mem_nil, or_false] at hd; omega
  · simp only [List.mem_cons, List.not_mem_nil, or_false] at hd; omega
  · simp only [List.mem_cons, List.not_mem_nil, or_false] at hd; omega
  · simp only [List.mem_cons, List.not_mem_nil, or_false] at hd; omega
  · simp only [List.mem_cons] at hd
    rcases hd with h | h | h
    · omega
    · omega
    · exact hex4_ascii c d h
  · simp only [List.cons_append, List.mem_cons, List.mem_append] at hd
    rcases hd with h | h | h
    · omega
    · omega
    · rcases h with h | h | h | h
      · exact hex4_ascii _ d h
      · omega
      · omega
      · exact hex4_ascii _ d h

theorem encodeString_ascii (s : List Nat) : ∀ d ∈ encodeString s, d < 128 := by
  intro d hd
  simp only [encodeString, List.mem_cons, List.mem_append, List.not_mem_nil, or_false,
    List.mem_flatMap] at hd
  rcases hd with (h | ⟨a, ha, h⟩) | h
  · omega
  · exact escapeCp_ascii a d h
  · omega

theorem natDigits_ascii (n : Nat) : ∀ d ∈ natDigits n, d < 128 := by
  intro d hd
  obtain ⟨hall, _, _⟩ := natDigitsGo_spec (n + 1) n (by omega)
  have := hall d hd
  omega

theorem encodeInt_ascii (n : Int) : ∀ d ∈ encodeInt n, d < 128 := by
  intro d hd
  unfold encodeInt at hd
  split_ifs at hd
  · simp only [List.mem_cons] at hd
    rcases hd with h | h
    · omega
    · exact natDigits_ascii _ d h
  · exact natDigits_ascii _ d hd

mutual

/-- `dumps` writes pure ASCII (`ensure_ascii=True`). -/
theorem dumps_ascii (v : PyValue) :
    ∀ e, dumps v = some e → ∀ d ∈ e, d < 128 := by
  match v with
  | .null =>
    intro e hd
    simp only [dumps, Option.some.injEq] at hd
    subst hd
    decide
  | .bool b =>
    cases b <;> intro e hd <;> simp only [dumps, Option.some.injEq] at hd <;> subst hd <;>
      decide
  | .int n =>
    intro e hd
    simp only [dumps, Option.some.injEq] at hd
    subst hd
    exact encodeInt_ascii n
  | .str s =>
    intro e hd
    simp only [dumps, Option.some.injEq] at hd
    subst hd
    exact encodeString_ascii s
  | .nonSerializable t => intro e hd; simp [dumps] at hd
  | .list xs =>
    intro e hd
    simp only [dumps, Option.bind_eq_bind, bind, Option.bind_eq_some,
      Option.pure_def, Option.some.injEq] at hd
    obtain ⟨body, hbody, hb⟩ := hd
    subst hb
    intro d hd2
    rcases List.mem_cons.mp hd2 with h | h
    · omega
    · rcases List.mem_append.mp h with h | h
      · exact dumpsElems_ascii xs body hbody d h
      · simp only [List.mem_singleton] at h
        omega
  | .dict kvs =>
    intro e hd
    simp only [dumps, Option.bind_eq_bind, bind, Option.bind_eq_some,
      Option.pure_def, Option.some.injEq] at hd
    obtain ⟨body, hbody, hb⟩ := hd
    subst hb
    intro d hd2
    rcases List.mem_cons.mp hd2 with h | h
    · omega
    · rcases List.mem_append.mp h with h | h
      · exact dumpsMembers_ascii kvs body hbody d h
      · simp only [List.mem_singleton] at h
        omega

theorem dumpsElems_ascii (xs : List PyValue) :
    ∀ b, dumpsElems xs = some b → ∀ d ∈ b, d < 128 := by
  match xs with
  | [] =>
    intro b hd
    simp only [dumpsElems, Option.some.injEq] at hd
    subst hd
    simp
  | [x] =>
    intro b hd
    simp only [dumpsElems] at hd
    exact dumps_ascii x b hd
  | x :: y :: ys =>
    intro b hd
    simp only [dumpsElems, Option.bind_eq_bind, bind, Option.bind_eq_some,
      Option.pure_def, Option.some.injEq] at hd
    obtain ⟨ex, hex, tl, htl, hb⟩ := hd
    subst hb
    intro d hd2
    rcases List.mem_append.mp hd2 with h | h
    · rcases List.mem_append.mp h with h | h
      · exact dumps_ascii x ex hex d h
      · simp only [List.mem_cons, List.not_mem_nil, or_false] at h
        omega
    · exact dumpsElems_ascii (y :: ys) tl htl d h

theorem dumpsMembers_ascii (kvs : List (List Nat × PyValue)) :
    ∀ b, dumpsMembers kvs = some b → ∀ d ∈ b, d < 128 := by
  match kvs with
  | [] =>
    intro b hd
    simp only [dumpsMembers, Option.some.injEq] at hd
    subst hd
    simp
  | [(k, v)] =>
    intro b hd
    simp only [dumpsMembers, Option.bind_eq_bind, bind, Option.bind_eq_some,
      Option.pure_def, Option.some.injEq] at hd
    obtain ⟨ev, hev, hb⟩ := hd
    subst hb
    intro d hd2
    rcases List.mem_append.mp hd2 with h | h
    · rcases List.mem_append.mp h with h | h
      · exact encodeString_ascii k d h
      · simp only [List.mem_cons, List.not_mem_nil, or_false] at h
        omega
    · exact dumps_ascii v ev hev d h
  | (k, v) :: m :: ms =>
    intro b hd
    simp only [dumpsMembers, Option.bind_eq_bind, bind, Option.bind_eq_some,
      Option.pure_def, Option.some.injEq] at hd
    obtain ⟨ev, hev, tl, htl, hb⟩ := hd
    subst hb
    intro d hd2
    rcases List.mem_append.mp hd2 with h | h
    · rcases List.mem_append.mp h with h | h
      · rcases List.mem_append.mp h with h | h
        · rcases List.mem_append.mp h with h | h
          · exact encodeString_ascii k d h
          · simp only [List.mem_cons, List.not_mem_nil, or_false] at h
            omega
        · exact dumps_ascii v ev hev d h
      · simp only [List.mem_cons, List.not_mem_nil, or_false] at h
        omega
    · exact dumpsMembers_ascii (m :: ms) tl htl d h

end

/-- `str.encode('utf-8')` is the identity on ASCII code points. -/
theorem utf8Encode_ascii (s : List Nat) (h : ∀ c ∈ s, c < 128) :
    utf8Encode s = some s := by
  induction s with
  | nil => rfl
  | cons c rest ih =>
    have hc : c < 128 := h c (List.mem_cons_self c rest)
    have hcp : utf8EncodeCp c = some [c] := by simp [utf8EncodeCp, hc]
    have hrest := ih (fun a ha => h a (List.mem_cons_of_mem c ha))
    simp [utf8Encode, hcp, hrest]

theorem utf8Step_ascii (c : Nat) (rest : List Nat) (h : c < 128) :
    utf8Step (c :: rest) = U8Step.ok c rest := by
  simp [utf8Step, h]

/-- Strict `bytes.decode('utf-8')` is the identity on ASCII bytes. -/
theorem utf8StrictGo_ascii : ∀ (s : List Nat) (g : Nat), (∀ c ∈ s, c < 128) →
    s.length + 1 ≤ g → utf8StrictGo g s = some s := by
  intro s
  induction s with
  | nil =>
    intro g _ hg
    obtain ⟨g1, rfl⟩ : ∃ g1, g = g1 + 1 := ⟨g - 1, by omega⟩
    rfl
  | cons c rest ih =>
    intro g h hg
    obtain ⟨g1, rfl⟩ : ∃ g1, g = g1 + 1 := ⟨g - 1, by omega⟩
    have hc : c < 128 := h c (List.mem_cons_self c rest)
    have hrest := ih g1 (fun a ha => h a (List.mem_cons_of_mem c ha))
      (by simp only [List.length_cons] at hg; omega)
    simp [utf8StrictGo, utf8Step_ascii c rest hc, hrest]

theorem utf8Decode_ascii (s : List Nat) (h : ∀ c ∈ s, c < 128) :
    utf8Decode s = some s :=
  utf8StrictGo_ascii s (s.length + 1) h (Nat.le_refl _)

/-- The round-trip law: `loads` recovers any well-formed message from its
`dumps` rendering. -/
theorem loads_dumps (v : PyValue) (e : List Nat) (hwf : pyWf v = true)
    (hd : dumps v = some e) : loads e = some v := by
  obtain ⟨c, t, he, hcws, _, _⟩ := dumps_head_not_ws v e hd
  have hcnt := cntFuel_le v e hd
  have hmain := (parse_after_dumps (e.length + 1)).1 v e [] hwf hd hcnt rfl
  rw [List.append_nil] at hmain
  unfold loads
  rw [he, skipWs_cons_of_not_ws c t hcws, ← he, hmain]
  rfl

/-- C1 (confirmed): for every well-formed message accepted by JSON
encoding, `send_message` writes exactly the marker `b'!RPC '`, the UTF-8
encoding of the JSON rendering, and one newline; stripping the marker and
the trailing newline and decoding (UTF-8, then JSON) recovers a value equal
to the message. -/
theorem RPCProcess.send_message_roundtrip (m : PyValue) (e : List Nat)
    (hwf : pyWf m = true) (hd : dumps m = some e) :
    RPCProcess.send_message m = ([rpcMarker, e, [0x0A]], Except.ok ()) ∧
    ((rpcMarker ++ (e ++ [0x0A])).drop 5).dropLast = e ∧
    utf8Decode e = some e ∧
    loads e = some m := by
  have hascii : ∀ c ∈ e, c < 128 := dumps_ascii m e hd
  have henc : utf8Encode e = some e := utf8Encode_ascii e hascii
  refine ⟨?_, ?_, utf8Decode_ascii e hascii, loads_dumps m e hwf hd⟩
  · simp [RPCProcess.send_message, hd, henc]
  · have h5 : (rpcMarker ++ (e ++ [0x0A])).drop 5 = e ++ [0x0A] := by
      have := List.drop_left rpcMarker (e ++ [0x0A])
      simpa [rpcMarker] using this
    rw [h5, List.dropLast_concat]

/-- Witness for C1: the message `{"cmd": "ping"}` framed and recovered. -/
theorem RPCProcess.send_message_roundtrip_witness :
    pyWf (PyValue.dict [([99, 109, 100], PyValue.str [112, 105, 110, 103])]) = true ∧
    dumps (PyValue.dict [([99, 109, 100], PyValue.str [112, 105, 110, 103])]) =
      some [123, 34, 99, 109, 100, 34, 58, 32, 34, 112, 105, 110, 103, 34, 125] ∧
    (RPCProcess.send_message (PyValue.dict [([99, 109, 100], PyValue.str [112, 105, 110, 103])]) =
      ([rpcMarker, [123, 34, 99, 109, 100, 34, 58, 32, 34, 112, 105, 110, 103, 34, 125],
        [0x0A]], Except.ok ()) ∧
      ((rpcMarker ++ ([123, 34, 99, 109, 100, 34, 58, 32, 34, 112, 105, 110, 103, 34, 125] ++
        [0x0A])).drop 5).dropLast =
        [123, 34, 99, 109, 100, 34, 58, 32, 34, 112, 105, 110, 103, 34, 125] ∧
      utf8Decode [123, 34, 99, 109, 100, 34, 58, 32, 34, 112, 105, 110, 103, 34, 125] =
        some [123, 34, 99, 109, 100, 34, 58, 32, 34, 112, 105, 110, 103, 34, 125] ∧
      loads [123, 34, 99, 109, 100, 34, 58, 32, 34, 112, 105, 110, 103, 34, 125] =
        some (PyValue.dict [([99, 109, 100], PyValue.str [112, 105, 110, 103])])) :=
  ⟨rfl, rfl,
   RPCProcess.send_message_roundtrip
     (PyValue.dict [([99, 109, 100], PyValue.str [112, 105, 110, 103])])
     [123, 34, 99, 109, 100, 34, 58, 32, 34, 112, 105, 110, 103, 34, 125] rfl rfl⟩

end Wpull
